import Mathlib

/-! hw1.c : a command-line SMTP client

A shallow embedding of `src/hw1.c` and the properties of its resolver
(`get_servers`), its SMTP session (`smtp_send`, `smtp_receive`,
`send_email_to_server`) and its orchestrator (`send_email`).

Conventions of the embedding.

* A byte is a `Nat`; `Bytes` is a list of bytes.
* A value passed where C takes a `char *` string argument is the content of
  that string, terminator excluded.  A raw buffer may hold NUL bytes and is
  turned into the string C sees in it by `cstr`.  `fgets` stores a terminator
  after the bytes it reads; `read` does not, so a buffer filled by `read` is
  the bytes read followed by what the memory held there before.
* The outside world (the shell pipeline, the network peer) is a parameter.
-/

namespace Hw1

abbrev Bytes := List Nat

/-- The bytes of a string literal (all literals used here are ASCII). -/
def str (s : String) : Bytes := s.toList.map Char.toNat

/-- C: `#define MAXBUF 4096` -/
def MAXBUF : Nat := 4096

/-- C: `#define MAXSERVS 50` -/
def MAXSERVS : Nat := 50

/-! ## C library primitives -/

/-- The C string held in a raw buffer: its bytes before the first NUL. -/
def cstr (buf : Bytes) : Bytes := buf.takeWhile (fun b => b ≠ 0)

/-- C: `strcspn(s, reject)`: length of the initial segment of `s` free of the bytes of `reject`. -/
def strcspn (s reject : Bytes) : Nat := (s.takeWhile (fun b => b ∉ reject)).length

/-- C: `s[i] = 0`: the string held in `s` after a NUL is stored at offset `i ≤ strlen(s)`. -/
def terminateAt (s : Bytes) (i : Nat) : Bytes := s.take i

/-- C: `strchr(s, c)` and `strpbrk(s, accept)`: the offset of the first byte of `s`
that belongs to `accept`, or `none` for a NULL result. -/
def strpbrk (s accept : Bytes) : Option Nat :=
  if (s.takeWhile (fun b => b ∉ accept)).length < s.length
  then some (s.takeWhile (fun b => b ∉ accept)).length
  else none

/-- C: `strchr(s, c)` for a byte `c` other than NUL. -/
def strchr (s : Bytes) (c : Nat) : Option Nat := strpbrk s [c]

/-- First call `strtok(s, delim)`: skip the leading delimiter bytes; `none` (NULL) when
nothing is left, else the token that runs up to the next delimiter byte. -/
def strtok (s delim : Bytes) : Option Bytes :=
  match s.dropWhile (fun b => b ∈ delim) with
  | [] => none
  | t :: ts => some ((t :: ts).takeWhile (fun b => b ∉ delim))

/-- C: `isspace` in the C locale: space, `\t`, `\n`, `\v`, `\f`, `\r`. -/
def isspace (b : Nat) : Bool := b == 32 || (9 ≤ b && b ≤ 13)

/-- One `fgets` with room for `k` bytes on a stream holding `input`: the bytes stored
(up to and including the first newline, at most `k`) and the rest of the stream. -/
def fgetsAux : Nat → Bytes → Bytes × Bytes
  | _, [] => ([], [])
  | 0, rest => ([], rest)
  | k + 1, c :: rest =>
    if c = 10 then ([c], rest)
    else ((c :: (fgetsAux k rest).1), (fgetsAux k rest).2)

/-- C: `fgets(buffer, size, stream)`: `none` (NULL) at end of file, else the raw buffer
contents (at most `size - 1` bytes) and the rest of the stream. -/
def fgets (size : Nat) (input : Bytes) : Option (Bytes × Bytes) :=
  match input with
  | [] => none
  | c :: rest => some (fgetsAux (size - 1) (c :: rest))

/-- The buffers of the successive `fgets(buffer, size, stream)` calls of a
`while(fgets(...))` loop that runs to end of file; `fuel` bounds the number of calls. -/
def fgetsLoop (size : Nat) : Nat → Bytes → List Bytes
  | 0, _ => []
  | fuel + 1, input =>
    match fgets size input with
    | none => []
    | some (buffer, rest) => buffer :: fgetsLoop size fuel rest

/-- The buffers a `while(fgets(buffer, MAXBUF, stream))` loop sees on a stream holding
`input`: every call takes at least one byte, so `input.length` calls reach end of file. -/
def lines (input : Bytes) : List Bytes := fgetsLoop MAXBUF input.length input

/-- The two-byte set `"\r\n"`. -/
def crlf : Bytes := [13, 10]

/-- C: `buffer[strcspn(buffer, "\r\n")] = 0` on a raw buffer: the string left in it. -/
def chomp (buffer : Bytes) : Bytes :=
  terminateAt (cstr buffer) (strcspn (cstr buffer) crlf)

/-! ## Format templates and `snprintf` -/

/-- A `printf` template with a single `%s`: the text before it and the text after it. -/
structure Format where
  pre : Bytes
  post : Bytes

/-- C: `char *helo = "HELO %s\r\n";` -/
def helo : Format := ⟨str "HELO ", str "\r\n"⟩

/-- C: `char *mail = "MAIL FROM: <%s>\r\n";` -/
def mail : Format := ⟨str "MAIL FROM: <", str ">\r\n"⟩

/-- C: `char *rcpt = "RCPT TO: <%s>\r\n";` -/
def rcpt : Format := ⟨str "RCPT TO: <", str ">\r\n"⟩

/-- C: `char *data = "%s\r\n";` -/
def data : Format := ⟨[], str "\r\n"⟩

/-- The complete text a template produces for an argument. -/
def Format.render (f : Format) (message : Bytes) : Bytes := f.pre ++ message ++ f.post

/-- C: `snprintf(buffer, size, format, message)`: the return value (length of the complete
text) and the string stored in the buffer (at most `size - 1` bytes of it). -/
def snprintf (size : Nat) (format : Format) (message : Bytes) : Nat × Bytes :=
  ((format.render message).length, (format.render message).take (size - 1))

/-! ## Events on a connection -/

/-- What a session does to the outside world, in order. -/
inductive Ev where
  | socket (ok : Bool)
  | connect (ok : Bool)
  | read (reply : Option Bytes) (ok : Bool)
  | write (bytes : Bytes) (ok : Bool)
  | overflow
  | close
  deriving DecidableEq

/-! ## `smtp_send` and `smtp_receive` -/

/-- C: `smtp_send(fd, format, message)`; `wok` tells whether the `write` call succeeds.
Returns the C result and the event: `overflow` when `snprintf` does not fit (no `write`
call is made), else the `write` call with the bytes handed to it. -/
def smtp_send (wok : Bool) (format : Format) (message : Bytes) : Bool × Ev :=
  let r := snprintf MAXBUF format message
  if r.1 ≥ MAXBUF then (false, Ev.overflow)
  else if wok then (true, Ev.write r.2 true)
  else (false, Ev.write r.2 false)

/-- C: `smtp_receive(fd, expected_code)`; `r` is what `read(fd, buffer, MAXBUF)` gives:
`none` for an error, else the bytes it stored at the start of `buffer`. The buffer is
not initialised and the code stores no terminator after the bytes read, so the string
`strcspn` and `strtok` scan is the bytes read followed by `stale`, what the memory holds
after them at that moment. -/
def smtp_receive (r : Option Bytes) (stale : Bytes) (expected_code : Bytes) : Bool :=
  match r with
  | none => false
  | some received =>
    match strtok (chomp (received ++ stale)) [32] with
    | none => false
    | some code => decide (code = expected_code)

/-! ## The SMTP session -/

/-- The world as one session meets it: whether `getaddrinfo`, `socket` and `connect`
succeed, what the `n`-th `read` call gives (`none`: an error), what the memory after the
bytes of the `n`-th read holds, and whether the `n`-th `write` call succeeds. -/
structure Peer where
  resolves : Bool
  socketOk : Bool
  connectOk : Bool
  reads : Nat → Option Bytes
  stale : Nat → Bytes
  writeOk : Nat → Bool

/-- An open connection: the world behind it, the number of `read` calls and of `write`
calls made so far, and the events so far. -/
structure Conn where
  reads : Nat → Option Bytes
  stale : Nat → Bytes
  nreads : Nat
  writeOk : Nat → Bool
  nwrites : Nat
  log : List Ev

/-- What one call of `send_email_to_server` leaves: its return value, the events in
order, and the unread part of the message source. -/
structure Session where
  result : Bool
  log : List Ev
  rest : Bytes

/-- One `smtp_receive(fd, code)` on a connection. -/
def recv (c : Conn) (code : Bytes) : Bool × Conn :=
  (smtp_receive (c.reads c.nreads) (c.stale c.nreads) code,
    { c with
      nreads := c.nreads + 1
      log := c.log ++
        [Ev.read (c.reads c.nreads) (smtp_receive (c.reads c.nreads) (c.stale c.nreads) code)] })

/-- One `smtp_send(fd, format, message)` on a connection. -/
def send (c : Conn) (format : Format) (message : Bytes) : Bool × Conn :=
  ((smtp_send (c.writeOk c.nwrites) format message).1,
    { c with
      nwrites := if (smtp_send (c.writeOk c.nwrites) format message).2 = Ev.overflow
        then c.nwrites else c.nwrites + 1
      log := c.log ++ [(smtp_send (c.writeOk c.nwrites) format message).2] })

/-- The failure exit `close(fd); freeaddrinfo(addr); return 0;`. -/
def abort (c : Conn) (rest : Bytes) : Session := ⟨false, c.log ++ [Ev.close], rest⟩

/-- C: `if(!smtp_receive(fd, code)){ close(fd); freeaddrinfo(addr); return 0; }` followed by `k`. -/
def expect (c : Conn) (code : Bytes) (rest : Bytes) (k : Conn → Session) : Session :=
  if (recv c code).1 then k (recv c code).2 else abort (recv c code).2 rest

/-- C: `if(!smtp_send(fd, format, message)){ close(fd); freeaddrinfo(addr); return 0; }` followed by `k`. -/
def command (c : Conn) (format : Format) (message : Bytes) (rest : Bytes)
    (k : Conn → Session) : Session :=
  if (send c format message).1 then k (send c format message).2
  else abort (send c format message).2 rest

/-- The loop `while(fgets(buffer, MAXBUF, email)){ buffer[strcspn(buffer, "\r\n")] = 0;
if(!smtp_send(fd, data, buffer)){...return 0;} }` over the buffers `fgets` gives, followed
by `k` once `fgets` returns NULL. -/
def sendData (k : Conn → Session) : List Bytes → Conn → Session
  | [], c => k c
  | buffer :: more, c =>
    if (send c data (chomp buffer)).1 then sendData k more (send c data (chomp buffer)).2
    else abort (send c data (chomp buffer)).2 more.flatten

/-- The part of the session after the `DATA` phase's lines: the lone `.`, `250`, `QUIT`, `221`. -/
def finish (c : Conn) : Session :=
  command c data (str ".") [] fun c =>
  expect c (str "250") [] fun c =>
  command c data (str "QUIT") [] fun c =>
  expect c (str "221") [] fun c =>
  ⟨true, c.log ++ [Ev.close], []⟩

/-- C: `send_email_to_server(email, server, sender, receiver)`; `email` is the unread part
of the message source, `net` gives the peer behind a server name. -/
def send_email_to_server (email : Bytes) (server sender receiver : Bytes)
    (net : Bytes → Peer) : Session :=
  match strchr sender 64 with
  | none => ⟨false, [], email⟩
  | some i =>
    if !(net server).resolves then ⟨false, [], email⟩
    else if !(net server).socketOk then ⟨false, [Ev.socket false, Ev.close], email⟩
    else if !(net server).connectOk then
      ⟨false, [Ev.socket true, Ev.connect false, Ev.close], email⟩
    else
      expect ⟨(net server).reads, (net server).stale, 0, (net server).writeOk, 0,
          [Ev.socket true, Ev.connect true]⟩
        (str "220") email fun c =>
      command c helo (sender.drop (i + 1)) email fun c =>
      expect c (str "250") email fun c =>
      command c mail sender email fun c =>
      expect c (str "250") email fun c =>
      command c rcpt receiver email fun c =>
      expect c (str "250") email fun c =>
      command c data (str "DATA") email fun c =>
      expect c (str "354") email fun c =>
      sendData finish (lines email) c

/-! ## The resolver `get_servers` -/

/-- One slot of the `servers` array: a stored hostname, or a slot the loop stepped over
without storing to it (it holds whatever `malloc` left there). -/
inductive Slot where
  | uninit
  | host (name : Bytes)
  deriving DecidableEq

/-- The array `get_servers` returns: the slots `servers[0 .. i-1]` the loop went through,
and whether the final store `servers[i] = 0` falls inside the `MAXSERVS` slots allocated. -/
structure Servers where
  slots : List Slot
  terminatorInBounds : Bool
  deriving DecidableEq

/-- C: `char *command = "dig mx %s +short | sort -n";` -/
def command_template : Format := ⟨str "dig mx ", str " +short | sort -n"⟩

/-- The body of the `for` loop of `get_servers` on one buffer: split at the first space
or tab, skip the whitespace after it, cut the rest at the first CR or LF. -/
def parseRecord (buffer : Bytes) : Slot :=
  match strpbrk (cstr buffer) [32, 9] with
  | none => Slot.uninit
  | some i =>
    Slot.host
      (terminateAt (((cstr buffer).drop (i + 1)).dropWhile (fun b => isspace b))
        (strcspn (((cstr buffer).drop (i + 1)).dropWhile (fun b => isspace b)) crlf))

/-- C: `get_servers(hostname)`; `popen` gives the output of a shell command, `none` when
the command cannot be started. `none` is the NULL result. -/
def get_servers (hostname : Bytes) (popen : Bytes → Option Bytes) : Option Servers :=
  if (snprintf MAXBUF command_template hostname).1 ≥ MAXBUF then none
  else
    match popen (snprintf MAXBUF command_template hostname).2 with
    | none => none
    | some records =>
      some ⟨((lines records).take MAXSERVS).map parseRecord,
        decide (((lines records).take MAXSERVS).length < MAXSERVS)⟩

/-! ### The shell pipeline `dig mx <domain> +short | sort -n` -/

/-- One mail-exchange record as `dig +short` prints it: the priority in decimal digits
and the hostname. -/
structure MX where
  priority : Bytes
  host : Bytes
  deriving DecidableEq

/-- The value of a string of decimal digits. -/
def decimal (digits : Bytes) : Nat := digits.foldl (fun acc d => 10 * acc + (d - 48)) 0

/-- C: `isdigit`. -/
def isdigit (b : Nat) : Bool := 48 ≤ b && b ≤ 57

/-- The line `dig +short` prints for a record: `priority hostname\n`. -/
def MX.line (r : MX) : Bytes := r.priority ++ [32] ++ r.host ++ [10]

/-- The priority value of a record. -/
def MX.value (r : MX) : Nat := decimal r.priority

/-- A record as the DNS gives it: a priority of one to five digits, a non-empty
hostname of at most 255 bytes without NUL or whitespace. -/
def MX.WellFormed (r : MX) : Prop :=
  r.priority ≠ [] ∧ r.priority.length ≤ 5 ∧ (∀ d ∈ r.priority, isdigit d = true) ∧
  r.host ≠ [] ∧ r.host.length ≤ 255 ∧ ∀ b ∈ r.host, b ≠ 0 ∧ isspace b = false

instance (r : MX) : Decidable r.WellFormed := by
  unfold MX.WellFormed; infer_instance

/-- The key `sort -n` compares lines by: the value of the leading digits. -/
def numKey (line : Bytes) : Nat := decimal (line.takeWhile (fun b => isdigit b))

/-- The tool `sort -n` of the pipeline, on the lines of its input: the lines ordered by
their numeric key, lines of equal key kept in input order. -/
def sort_n (ls : List Bytes) : List Bytes :=
  ls.insertionSort (fun a b => numKey a ≤ numKey b)

/-- What the pipeline prints when the query yields the records `recs`. -/
def pipeline (recs : List MX) : Bytes := (sort_n (recs.map MX.line)).flatten

/-! ## The orchestrator `send_email` -/

/-- The bracketed string the header scan takes from one buffer: what stands after the
first `<` up to the next `>`; `none` when either is missing.
(`delim = strchr(buffer, '<')`, `term = strchr(++delim, '>')`, `*term = 0`.) -/
def bracketed (buffer : Bytes) : Option Bytes :=
  match strchr (cstr buffer) 60 with
  | none => none
  | some i =>
    match strchr ((cstr buffer).drop (i + 1)) 62 with
    | none => none
    | some j => some (terminateAt ((cstr buffer).drop (i + 1)) j)

/-- The loop `while(fgets(buffer, MAXBUF, email))` of `send_email` over the buffers
`fgets` gives, from the current `sender`: the sender, the receiver and the buffers left
unread. With `sender == NULL` the first branch runs when the buffer has a `<` (and sets
the sender when a `>` follows), the second branch finds no `<`; with the sender set the
second branch runs and breaks out of the loop once it has set the receiver. -/
def scanHeaders : List Bytes → Option Bytes → Option Bytes × Option Bytes × List Bytes
  | [], sender => (sender, none, [])
  | buffer :: more, none =>
    match strchr (cstr buffer) 60 with
    | some _ => scanHeaders more (bracketed buffer)
    | none => scanHeaders more none
  | buffer :: more, some sender =>
    match bracketed buffer with
    | some receiver => (some sender, some receiver, more)
    | none => scanHeaders more (some sender)

/-- The open message source: its whole content and the part not yet read. -/
structure FILE where
  content : Bytes
  rest : Bytes

/-- C: `rewind(email)`. -/
def rewind (email : FILE) : FILE := ⟨email.content, email.content⟩

/-- One call of `send_email_to_server` made by `send_email`: the server, what the
message source held unread when the session started, and the session. -/
structure Attempt where
  server : Bytes
  input : Bytes
  session : Session

/-- What `send_email` leaves: its return value, the hostnames handed to `get_servers`,
the sessions run in order, and whether an uninitialised slot of the server array was
read (the behaviour is then undefined; the run is cut there). -/
structure Delivery where
  result : Bool
  resolved : List Bytes
  attempts : List Attempt
  undefined : Bool

/-- The loop `for(i = 0; i < MAXSERVS && servers[i] != 0; i++)` of `send_email` from
index `i` over the slots left; `net i` is the network at the `i`-th attempt. -/
def tryServers (sender receiver : Bytes) (net : Nat → Bytes → Peer) :
    Nat → List Slot → FILE → Bool × List Attempt × Bool
  | _, [], _ => (false, [], false)
  | _, Slot.uninit :: _, _ => (false, [], true)
  | i, Slot.host server :: more, email =>
    if (send_email_to_server (rewind email).rest server sender receiver (net i)).result then
      (true,
        [⟨server, (rewind email).rest,
          send_email_to_server (rewind email).rest server sender receiver (net i)⟩], false)
    else
      ((tryServers sender receiver net (i + 1) more
          ⟨email.content,
            (send_email_to_server (rewind email).rest server sender receiver (net i)).rest⟩).1,
        ⟨server, (rewind email).rest,
          send_email_to_server (rewind email).rest server sender receiver (net i)⟩ ::
        (tryServers sender receiver net (i + 1) more
          ⟨email.content,
            (send_email_to_server (rewind email).rest server sender receiver (net i)).rest⟩).2.1,
        (tryServers sender receiver net (i + 1) more
          ⟨email.content,
            (send_email_to_server (rewind email).rest server sender receiver (net i)).rest⟩).2.2)

/-- C: `send_email(filename)`; `fopen` is the content of the file (`none`: it cannot be
opened), `popen` the shell, `net` the network. -/
def send_email (fopen : Option Bytes) (popen : Bytes → Option Bytes)
    (net : Nat → Bytes → Peer) : Delivery :=
  match fopen with
  | none => ⟨false, [], [], false⟩
  | some content =>
    match scanHeaders (lines content) none with
    | (some sender, some receiver, unread) =>
      match strchr receiver 64 with
      | none => ⟨false, [], [], false⟩
      | some i =>
        match get_servers (receiver.drop (i + 1)) popen with
        | none => ⟨false, [receiver.drop (i + 1)], [], false⟩
        | some servers =>
          ⟨(tryServers sender receiver net 0 (servers.slots.take MAXSERVS)
              ⟨content, unread.flatten⟩).1,
            [receiver.drop (i + 1)],
            (tryServers sender receiver net 0 (servers.slots.take MAXSERVS)
              ⟨content, unread.flatten⟩).2.1,
            (tryServers sender receiver net 0 (servers.slots.take MAXSERVS)
              ⟨content, unread.flatten⟩).2.2⟩
    | _ => ⟨false, [], [], false⟩

/-! ## Specification-side notions -/

/-- The first line of a reply: its bytes before the first NUL, CR or LF. -/
def firstLine (reply : Bytes) : Bytes :=
  reply.takeWhile (fun b => b ≠ 0 ∧ b ≠ 13 ∧ b ≠ 10)

/-- The leading whitespace-delimited token of a reply, whitespace being what `isspace`
accepts: skip the leading whitespace, take the bytes up to the next whitespace. -/
def leadingToken (reply : Bytes) : Bytes :=
  (reply.dropWhile (fun b => isspace b)).takeWhile (fun b => !isspace b)

/-- A three-digit reply code. -/
def ThreeDigit (code : Bytes) : Prop := code.length = 3 ∧ ∀ d ∈ code, 48 ≤ d ∧ d ≤ 57

instance (code : Bytes) : Decidable (ThreeDigit code) := by
  unfold ThreeDigit; infer_instance

/-- A reply that carries a code: the three digits at its start, followed by a space or
by the line terminator (a CR or an LF). -/
def Carries (reply code : Bytes) : Prop :=
  ThreeDigit code ∧ reply.take 3 = code ∧
    ((reply.drop 3).take 1 = [32] ∨ (reply.drop 3).take 1 = [13] ∨ (reply.drop 3).take 1 = [10])

instance (reply code : Bytes) : Decidable (Carries reply code) := by
  unfold Carries; infer_instance

/-- The `n`-th read of a peer gives a reply that carries the code. -/
def Answers (p : Peer) (n : Nat) (code : Bytes) : Prop :=
  ∃ reply, p.reads n = some reply ∧ Carries reply code

/-- The codes a session waits for, in order. -/
def expectedCodes : List Bytes :=
  [str "220", str "250", str "250", str "250", str "354", str "250", str "221"]

/-- The bytes of the `write` calls of a log that succeeded, in order. -/
def written (log : List Ev) : List Bytes :=
  log.filterMap fun e =>
    match e with
    | Ev.write bytes true => some bytes
    | _ => none

/-- A step that failed. -/
def Ev.failed : Ev → Bool
  | Ev.socket ok => !ok
  | Ev.connect ok => !ok
  | Ev.read _ ok => !ok
  | Ev.write _ ok => !ok
  | Ev.overflow => true
  | Ev.close => false

/-- The `write` events of a run of data lines that all go through. -/
def dataEvents (ls : List Bytes) : List Ev :=
  ls.map (fun l => Ev.write (data.render (chomp l)) true)

/-- A log on which every step so far went through and the connection is still open. -/
def Clean (log : List Ev) : Prop := Ev.close ∉ log ∧ ∀ e ∈ log, e.failed = false

/-- The discipline of a finished session: the log ends with the one `close`; a failed
step is the last thing before it and makes the result a failure; a failure comes from
a failed step. -/
def Disciplined (s : Session) : Prop :=
  ∃ pre, s.log = pre ++ [Ev.close] ∧ Ev.close ∉ pre ∧
    (∀ a e b, pre = a ++ e :: b → e.failed = true → b = [] ∧ s.result = false) ∧
    (s.result = false → ∃ a e, pre = a ++ [e] ∧ e.failed = true)

/-- A line with its own terminator removed: a final LF, and a CR before it, are dropped. -/
def stripTerminator (line : Bytes) : Bytes :=
  if line.getLast? = some 10 then
    (if line.dropLast.getLast? = some 13 then line.dropLast.dropLast else line.dropLast)
  else if line.getLast? = some 13 then line.dropLast
  else line

/-- The bytes a session that goes through writes according to the specification: the four
commands, every line of the message source with its own terminator removed, the lone
`.` and `QUIT`, each followed by CRLF. -/
def specifiedBytes (dom sender receiver email : Bytes) : List Bytes :=
  [str "HELO " ++ dom ++ str "\r\n", str "MAIL FROM: <" ++ sender ++ str ">\r\n",
    str "RCPT TO: <" ++ receiver ++ str ">\r\n", str "DATA\r\n"] ++
  (lines email).map (fun l => stripTerminator l ++ str "\r\n") ++
  [str ".\r\n", str "QUIT\r\n"]

/-! ## Sample peers and inputs -/

/-- A server that answers every step with the code the client waits for. -/
def acceptingPeer : Peer :=
  ⟨true, true, true,
    fun n =>
      [some (str "220 mx ready\r\n"), some (str "250 hello\r\n"), some (str "250 ok\r\n"),
        some (str "250 ok\r\n"), some (str "354 go ahead\r\n"), some (str "250 queued\r\n"),
        some (str "221 bye\r\n")].getD n (some []),
    fun _ => str "left over",
    fun _ => true⟩

/-- A server that greets with a refusal. -/
def refusingPeer : Peer :=
  ⟨true, true, true, fun _ => some (str "554 no service\r\n"), fun _ => str "left over",
    fun _ => true⟩

/-- A small message source with its two header lines. -/
def sampleEmail : Bytes := str "From: <a@b.com>\r\nTo: <c@d.com>\r\n\r\nhello\r\n"

/-- Fifty-one records of priorities 10 to 60 for one domain. -/
def manyRecords : List MX :=
  (List.range 51).map (fun i => ⟨[49 + i / 10, 48 + i % 10], str "mx.d.com."⟩)

/-- A proper line: a body without LF, closed by LF, short enough for the buffer. -/
def ProperLine (l : Bytes) : Prop :=
  ∃ body, l = body ++ [10] ∧ 10 ∉ body ∧ body.length < MAXBUF - 1

/-- The records in the order `sort -n` puts their lines. -/
def sortedRecords (recs : List MX) : List MX :=
  recs.insertionSort (fun a b => a.value ≤ b.value)

/-- The server and the input of an attempt. -/
def Attempt.key (a : Attempt) : Bytes × Bytes := (a.server, a.input)

/-- A network on which only the server `s3.d.com.` accepts the message. -/
def onlyThird : Nat → Bytes → Peer :=
  fun _ server => if server = str "s3.d.com." then acceptingPeer else refusingPeer

/-- A shell whose pipeline prints three records. -/
def threeRecords : Bytes → Option Bytes :=
  fun _ => some (str "10 s1.d.com.\n20 s2.d.com.\n30 s3.d.com.\n")

/-- The bracketed strings of a line of text in order: from a `<` to the next `>`, then
on from there. `inside` holds what has been read since an open `<`. -/
def bracketedFrom : Bytes → Option Bytes → List Bytes
  | [], _ => []
  | c :: t, none => if c = 60 then bracketedFrom t (some []) else bracketedFrom t none
  | c :: t, some inside =>
    if c = 62 then inside :: bracketedFrom t none else bracketedFrom t (some (inside ++ [c]))

/-- The bracketed strings of a message source in file order, line by line. -/
def bracketedStrings (source : Bytes) : List Bytes :=
  (lines source).flatMap (fun l => bracketedFrom (cstr l) none)

/-! ## Lemmas on the C primitives -/

theorem take_length_takeWhile (p : Nat → Bool) (l : Bytes) :
    l.take (l.takeWhile p).length = l.takeWhile p := by
  induction l with
  | nil => rfl
  | cons a t ih =>
    by_cases h : p a = true
    · simp [List.takeWhile_cons, h, ih]
    · simp [List.takeWhile_cons, h]

theorem takeWhile_takeWhile (p q : Nat → Bool) (l : Bytes) :
    (l.takeWhile p).takeWhile q = l.takeWhile (fun b => p b && q b) := by
  induction l with
  | nil => rfl
  | cons a t ih =>
    by_cases h : p a = true
    · by_cases h2 : q a = true
      · simp [List.takeWhile_cons, h, h2, ih]
      · simp [List.takeWhile_cons, h, h2]
    · simp [List.takeWhile_cons, h]

theorem chomp_eq (buffer : Bytes) : chomp buffer = firstLine buffer := by
  unfold chomp terminateAt strcspn cstr firstLine
  rw [take_length_takeWhile, takeWhile_takeWhile]
  congr 1
  funext b
  simp [crlf, Bool.and_assoc]

theorem dropWhile_replicate_append (p : Nat → Bool) (k : Nat) (a : Nat) (l : Bytes)
    (ha : p a = true) : (List.replicate k a ++ l).dropWhile p = l.dropWhile p := by
  induction k with
  | zero => simp
  | succ k ih => simp [List.replicate_succ, List.dropWhile_cons, ha, ih]

theorem takeWhile_eq_replicate (a : Nat) (l : Bytes) :
    l.takeWhile (fun b => decide (b = a)) = List.replicate (l.takeWhile (fun b => decide (b = a))).length a := by
  induction l with
  | nil => rfl
  | cons x t ih =>
    by_cases h : x = a
    · subst h
      simp only [List.takeWhile_cons, decide_True, if_true, List.length_cons, List.replicate_succ]
      rw [← ih]
    · simp [List.takeWhile_cons, h]

theorem takeWhile_append_stop (p : Nat → Bool) (l r : Bytes) (hl : ∀ b ∈ l, p b = true)
    (hr : r = [] ∨ ∃ b t, r = b :: t ∧ p b = false) : (l ++ r).takeWhile p = l := by
  induction l with
  | nil =>
    rcases hr with rfl | ⟨b, t, rfl, hb⟩
    · rfl
    · simp [List.takeWhile_cons, hb]
  | cons a t ih =>
    have ha : p a = true := hl a (List.mem_cons_self _ _)
    simp only [List.cons_append, List.takeWhile_cons, ha, if_true]
    rw [ih (fun b hb => hl b (List.mem_cons_of_mem _ hb))]

theorem dropWhile_head_false (p : Nat → Bool) (l : Bytes) :
    l.dropWhile p = [] ∨ ∃ b t, l.dropWhile p = b :: t ∧ p b = false := by
  induction l with
  | nil => left; rfl
  | cons a t ih =>
    by_cases h : p a = true
    · simpa [List.dropWhile_cons, h] using ih
    · right
      exact ⟨a, t, by simp [List.dropWhile_cons, h], by simpa using h⟩

/-- The token `strtok(s, " ")` finds, stated on the shape of `s`. -/
theorem strtok_space_iff (s code : Bytes) (hne : code ≠ []) (hsp : 32 ∉ code) :
    strtok s [32] = some code ↔
      ∃ k rest, s = List.replicate k 32 ++ code ++ rest ∧ (rest = [] ∨ ∃ t, rest = 32 :: t) := by
  have hp : ∀ b ∈ code, (fun b : Nat => decide (b ∉ [32])) b = true := by
    intro b hb
    have : b ≠ 32 := fun h => hsp (h ▸ hb)
    simp [this]
  constructor
  · intro h
    unfold strtok at h
    have hsplit := List.takeWhile_append_dropWhile (fun b => decide (b ∈ [32])) s
    have hrep : s.takeWhile (fun b => decide (b ∈ [32])) =
        List.replicate (s.takeWhile (fun b => decide (b ∈ [32]))).length 32 := by
      have := takeWhile_eq_replicate 32 s
      simpa using this
    cases hd : s.dropWhile (fun b => decide (b ∈ [32])) with
    | nil => rw [hd] at h; simp at h
    | cons t ts =>
      rw [hd] at h
      simp only [Option.some.injEq] at h
      have hs2 := List.takeWhile_append_dropWhile (fun b => decide (b ∉ [32])) (t :: ts)
      refine ⟨(s.takeWhile (fun b => decide (b ∈ [32]))).length,
        (t :: ts).dropWhile (fun b => decide (b ∉ [32])), ?_, ?_⟩
      · rw [← h, List.append_assoc, hs2, ← hd, ← hrep, hsplit]
      · rcases dropWhile_head_false (fun b => decide (b ∉ [32])) (t :: ts) with h0 | ⟨b, u, hb, hpb⟩
        · left; exact h0
        · right
          have : b = 32 := by simpa using hpb
          exact ⟨u, by rw [hb, this]⟩
  · rintro ⟨k, rest, rfl, hrest⟩
    unfold strtok
    obtain ⟨c, cs, rfl⟩ := List.exists_cons_of_ne_nil hne
    have hc : c ≠ 32 := fun h => hsp (h ▸ List.mem_cons_self _ _)
    have hdrop : (List.replicate k 32 ++ (c :: cs) ++ rest).dropWhile (fun b => decide (b ∈ [32]))
        = (c :: cs) ++ rest := by
      rw [List.append_assoc, dropWhile_replicate_append _ _ _ _ (by simp)]
      simp [List.dropWhile_cons, hc]
    rw [hdrop]
    simp only [List.cons_append, Option.some.injEq]
    have := takeWhile_append_stop (fun b => decide (b ∉ [32])) (c :: cs) rest hp
      (by
        rcases hrest with rfl | ⟨t, rfl⟩
        · left; rfl
        · right; exact ⟨32, t, rfl, by simp⟩)
    simpa using this

/-- What `smtp_receive` accepts, stated on the first line of the string it scans. -/
theorem smtp_receive_iff (reply stale code : Bytes) (hne : code ≠ []) (hsp : 32 ∉ code) :
    smtp_receive (some reply) stale code = true ↔
      ∃ k rest, firstLine (reply ++ stale) = List.replicate k 32 ++ code ++ rest ∧
        (rest = [] ∨ ∃ t, rest = 32 :: t) := by
  rw [← strtok_space_iff _ _ hne hsp, ← chomp_eq]
  simp only [smtp_receive]
  cases strtok (chomp (reply ++ stale)) [32] with
  | none => simp
  | some tok => simp

/-- A reply that holds a NUL, CR or LF has its first line decided by its own bytes. -/
theorem firstLine_append_of_terminated (reply stale : Bytes)
    (h : ∃ b ∈ reply, b = 0 ∨ b = 13 ∨ b = 10) :
    firstLine (reply ++ stale) = firstLine reply := by
  induction reply with
  | nil =>
    obtain ⟨b, hb, _⟩ := h
    exact absurd hb (List.not_mem_nil b)
  | cons a t ih =>
    by_cases ha : a = 0 ∨ a = 13 ∨ a = 10
    · have hp : ¬ (a ≠ 0 ∧ a ≠ 13 ∧ a ≠ 10) := by
        rintro ⟨h0, h13, h10⟩
        rcases ha with e | e | e
        · exact h0 e
        · exact h13 e
        · exact h10 e
      simp [firstLine, List.takeWhile_cons, hp]
    · have hp : a ≠ 0 ∧ a ≠ 13 ∧ a ≠ 10 := by
        refine ⟨fun e => ha (Or.inl e), fun e => ha (Or.inr (Or.inl e)),
          fun e => ha (Or.inr (Or.inr e))⟩
      have ht : ∃ b ∈ t, b = 0 ∨ b = 13 ∨ b = 10 := by
        obtain ⟨b, hb, hbad⟩ := h
        rcases List.mem_cons.1 hb with e | hm
        · exact absurd (e ▸ hbad) ha
        · exact ⟨b, hm, hbad⟩
      have := ih ht
      unfold firstLine at this ⊢
      simp only [List.cons_append, List.takeWhile_cons, hp, not_false_eq_true, and_self,
        decide_True, if_true, this]

theorem ThreeDigit.ne_nil {code : Bytes} (h : ThreeDigit code) : code ≠ [] := by
  intro h0
  have := h.1
  rw [h0] at this
  simp at this

theorem ThreeDigit.not_mem {code : Bytes} (h : ThreeDigit code) (b : Nat) (hb : b < 48) :
    b ∉ code := by
  intro hm
  have := (h.2 b hm).1
  omega

/-! ## Lemmas on `smtp_send` and on the steps of a session -/

theorem snprintf_fits (f : Format) (m : Bytes) (h : (f.render m).length < MAXBUF) :
    (snprintf MAXBUF f m).2 = f.render m := by
  unfold snprintf
  simp only
  apply List.take_of_length_le
  omega

theorem smtp_send_fits (wok : Bool) (f : Format) (m : Bytes)
    (h : (f.render m).length < MAXBUF) :
    smtp_send wok f m = (wok, Ev.write (f.render m) wok) := by
  have h2 := snprintf_fits f m h
  have h1 : (snprintf MAXBUF f m).1 = (f.render m).length := rfl
  unfold smtp_send
  simp only [h1, h2]
  have : ¬ (f.render m).length ≥ MAXBUF := by omega
  cases wok <;> simp [this]

theorem smtp_send_overflow (wok : Bool) (f : Format) (m : Bytes)
    (h : MAXBUF ≤ (f.render m).length) : smtp_send wok f m = (false, Ev.overflow) := by
  have h1 : (snprintf MAXBUF f m).1 = (f.render m).length := rfl
  unfold smtp_send
  simp only [h1]
  simp [h]

theorem smtp_send_true_iff (wok : Bool) (f : Format) (m : Bytes) :
    (smtp_send wok f m).1 = true ↔ (f.render m).length < MAXBUF ∧ wok = true := by
  by_cases h : (f.render m).length < MAXBUF
  · rw [smtp_send_fits wok f m h]; simp [h]
  · rw [smtp_send_overflow wok f m (by omega)]; simp [h]

theorem expect_of_ok (c : Conn) (code rest : Bytes) (k : Conn → Session)
    (h : smtp_receive (c.reads c.nreads) (c.stale c.nreads) code = true) :
    expect c code rest k =
      k ⟨c.reads, c.stale, c.nreads + 1, c.writeOk, c.nwrites,
        c.log ++ [Ev.read (c.reads c.nreads) true]⟩ := by
  simp only [expect, recv, h, if_true]

theorem expect_of_not (c : Conn) (code rest : Bytes) (k : Conn → Session)
    (h : smtp_receive (c.reads c.nreads) (c.stale c.nreads) code = false) :
    expect c code rest k =
      ⟨false, c.log ++ [Ev.read (c.reads c.nreads) false, Ev.close], rest⟩ := by
  simp only [expect, recv, h, abort, Bool.false_eq_true, if_false, List.append_assoc,
    List.singleton_append]

theorem command_of_ok (c : Conn) (f : Format) (m rest : Bytes) (k : Conn → Session)
    (h : (f.render m).length < MAXBUF) (hw : c.writeOk c.nwrites = true) :
    command c f m rest k =
      k ⟨c.reads, c.stale, c.nreads, c.writeOk, c.nwrites + 1, c.log ++ [Ev.write (f.render m) true]⟩ := by
  simp [command, send, smtp_send_fits _ f m h, hw]

theorem command_of_write_error (c : Conn) (f : Format) (m rest : Bytes) (k : Conn → Session)
    (h : (f.render m).length < MAXBUF) (hw : c.writeOk c.nwrites = false) :
    command c f m rest k =
      ⟨false, c.log ++ [Ev.write (f.render m) false, Ev.close], rest⟩ := by
  simp [command, send, smtp_send_fits _ f m h, hw, abort]

theorem command_of_overflow (c : Conn) (f : Format) (m rest : Bytes) (k : Conn → Session)
    (h : MAXBUF ≤ (f.render m).length) :
    command c f m rest k = ⟨false, c.log ++ [Ev.overflow, Ev.close], rest⟩ := by
  simp [command, send, smtp_send_overflow _ f m h, abort]

theorem expect_result (c : Conn) (code rest : Bytes) (k : Conn → Session) :
    (expect c code rest k).result = true ↔
      smtp_receive (c.reads c.nreads) (c.stale c.nreads) code = true ∧
      (k ⟨c.reads, c.stale, c.nreads + 1, c.writeOk, c.nwrites,
        c.log ++ [Ev.read (c.reads c.nreads) true]⟩).result = true := by
  cases h : smtp_receive (c.reads c.nreads) (c.stale c.nreads) code with
  | true => rw [expect_of_ok c code rest k h]; simp
  | false => rw [expect_of_not c code rest k h]; simp

theorem command_result (c : Conn) (f : Format) (m rest : Bytes) (k : Conn → Session) :
    (command c f m rest k).result = true ↔
      (f.render m).length < MAXBUF ∧ c.writeOk c.nwrites = true ∧
      (k ⟨c.reads, c.stale, c.nreads, c.writeOk, c.nwrites + 1,
        c.log ++ [Ev.write (f.render m) true]⟩).result = true := by
  by_cases h : (f.render m).length < MAXBUF
  · cases hw : c.writeOk c.nwrites with
    | true => rw [command_of_ok c f m rest k h hw]; simp [h]
    | false => rw [command_of_write_error c f m rest k h hw]; simp
  · rw [command_of_overflow c f m rest k (by omega)]; simp [h]

theorem sendData_of_ok (k : Conn → Session) (ls : List Bytes) (c : Conn)
    (hfit : ∀ l ∈ ls, (data.render (chomp l)).length < MAXBUF)
    (hw : ∀ j, j < ls.length → c.writeOk (c.nwrites + j) = true) :
    sendData k ls c =
      k ⟨c.reads, c.stale, c.nreads, c.writeOk, c.nwrites + ls.length, c.log ++ dataEvents ls⟩ := by
  induction ls generalizing c with
  | nil => simp [sendData, dataEvents]
  | cons l t ih =>
    have hl := hfit l (List.mem_cons_self _ _)
    have hw0 : c.writeOk c.nwrites = true := by simpa using hw 0 (by simp)
    have hsend : send c data (chomp l) =
        (true, ⟨c.reads, c.stale, c.nreads, c.writeOk, c.nwrites + 1,
          c.log ++ [Ev.write (data.render (chomp l)) true]⟩) := by
      simp [send, smtp_send_fits _ data _ hl, hw0]
    rw [sendData, hsend]
    simp only [if_true]
    rw [ih _ (fun x hx => hfit x (List.mem_cons_of_mem _ hx))
      (fun j hj => by
        have := hw (j + 1) (by simpa using hj)
        simpa [Nat.add_assoc, Nat.add_comm 1 j] using this)]
    simp [dataEvents, Nat.add_assoc, Nat.add_comm 1]

theorem sendData_result (k : Conn → Session) (ls : List Bytes) (c : Conn) :
    (sendData k ls c).result = true ↔
      (∀ l ∈ ls, (data.render (chomp l)).length < MAXBUF) ∧
      (∀ j, j < ls.length → c.writeOk (c.nwrites + j) = true) ∧
      (k ⟨c.reads, c.stale, c.nreads, c.writeOk, c.nwrites + ls.length, c.log ++ dataEvents ls⟩).result = true := by
  constructor
  · intro h
    induction ls generalizing c with
    | nil => simpa [sendData, dataEvents] using h
    | cons l t ih =>
      rw [sendData] at h
      by_cases hs : (send c data (chomp l)).1 = true
      · rw [if_pos hs] at h
        have hs' := hs
        simp only [send] at hs'
        rw [smtp_send_true_iff] at hs'
        obtain ⟨hl, hw0⟩ := hs'
        have hsend : (send c data (chomp l)).2 =
            ⟨c.reads, c.stale, c.nreads, c.writeOk, c.nwrites + 1,
              c.log ++ [Ev.write (data.render (chomp l)) true]⟩ := by
          simp [send, smtp_send_fits _ data _ hl, hw0]
        rw [hsend] at h
        obtain ⟨h1, h2, h3⟩ := ih _ h
        refine ⟨?_, ?_, ?_⟩
        · intro x hx
          rcases List.mem_cons.1 hx with rfl | hx
          · exact hl
          · exact h1 x hx
        · intro j hj
          cases j with
          | zero => simpa using hw0
          | succ j =>
            have := h2 j (by simpa using hj)
            simpa [Nat.add_assoc, Nat.add_comm 1 j] using this
        · simpa [dataEvents, Nat.add_assoc, Nat.add_comm 1] using h3
      · rw [if_neg hs] at h
        simp [abort] at h
  · rintro ⟨h1, h2, h3⟩
    rw [sendData_of_ok k ls c h1 h2]
    exact h3

/-! ## Replies that carry a code -/

theorem takeWhile_append_of_all (p : Nat → Bool) (l r : Bytes) (hl : ∀ b ∈ l, p b = true) :
    (l ++ r).takeWhile p = l ++ r.takeWhile p := by
  induction l with
  | nil => rfl
  | cons a t ih =>
    have ha : p a = true := hl a (List.mem_cons_self _ _)
    simp only [List.cons_append, List.takeWhile_cons, ha, if_true]
    rw [ih (fun b hb => hl b (List.mem_cons_of_mem _ hb))]

theorem firstLine_carries {reply code : Bytes} (h : Carries reply code) (stale : Bytes) :
    ∃ rest, firstLine (reply ++ stale) = List.replicate 0 32 ++ code ++ rest ∧
      (rest = [] ∨ ∃ t, rest = 32 :: t) := by
  obtain ⟨hc, htake, hnext⟩ := h
  have hsplit : reply = code ++ reply.drop 3 := by
    conv_lhs => rw [← List.take_append_drop 3 reply, htake]
  have hall : ∀ b ∈ code, (fun b : Nat => decide (b ≠ 0 ∧ b ≠ 13 ∧ b ≠ 10)) b = true := by
    intro b hb
    have := hc.2 b hb
    simp only [decide_eq_true_eq]
    omega
  refine ⟨firstLine (reply.drop 3 ++ stale), ?_, ?_⟩
  · conv_lhs => rw [hsplit]
    unfold firstLine
    rw [List.append_assoc, takeWhile_append_of_all _ _ _ hall]
    simp
  · cases hd : reply.drop 3 with
    | nil => rw [hd] at hnext; simp at hnext
    | cons b t =>
      rw [hd] at hnext
      simp only [List.take_succ_cons, List.take_zero, List.cons.injEq, and_true] at hnext
      rcases hnext with rfl | rfl | rfl
      · right; exact ⟨firstLine (t ++ stale), by simp [firstLine, List.takeWhile_cons]⟩
      · left; simp [firstLine, List.takeWhile_cons]
      · left; simp [firstLine, List.takeWhile_cons]

/-- A reply that carries a code passes `smtp_receive` exactly for that code, whatever
the memory after it holds. -/
theorem smtp_receive_carries {reply code : Bytes} (h : Carries reply code) (stale e : Bytes) :
    smtp_receive (some reply) stale e = decide (code = e) := by
  have hne := h.1.ne_nil
  have hsp := h.1.not_mem 32 (by omega)
  obtain ⟨rest, hfl, hrest⟩ := firstLine_carries h stale
  have htok : strtok (chomp (reply ++ stale)) [32] = some code := by
    rw [strtok_space_iff _ _ hne hsp, chomp_eq]
    exact ⟨0, rest, hfl, hrest⟩
  simp only [smtp_receive, htok]

theorem smtp_receive_answers {p : Peer} {n : Nat} {code : Bytes} (h : Answers p n code)
    (e : Bytes) : smtp_receive (p.reads n) (p.stale n) e = decide (code = e) := by
  obtain ⟨reply, hr, hc⟩ := h
  rw [hr]
  exact smtp_receive_carries hc _ e

theorem strchr_at (loc dom : Bytes) (c : Nat) (h : c ∉ loc) :
    strchr (loc ++ c :: dom) c = some loc.length := by
  have hall : ∀ b ∈ loc, (fun b : Nat => decide (b ∉ [c])) b = true := by
    intro b hb
    have : b ≠ c := fun e => h (e ▸ hb)
    simp [this]
  have htw : (loc ++ c :: dom).takeWhile (fun b => decide (b ∉ [c])) = loc := by
    apply takeWhile_append_stop _ _ _ hall
    right
    exact ⟨c, dom, rfl, by simp⟩
  unfold strchr strpbrk
  rw [htw]
  simp

theorem render_helo_length (m : Bytes) : (helo.render m).length = m.length + 7 := by
  simp [Format.render, helo, str]

theorem render_mail_length (m : Bytes) : (mail.render m).length = m.length + 15 := by
  simp [Format.render, mail, str]

theorem render_rcpt_length (m : Bytes) : (rcpt.render m).length = m.length + 13 := by
  simp [Format.render, rcpt, str]

theorem render_data_length (m : Bytes) : (data.render m).length = m.length + 2 := by
  simp [Format.render, data, str]

theorem session_result_iff (email server sender receiver : Bytes) (net : Bytes → Peer)
    (loc dom : Bytes) (hs : sender = loc ++ 64 :: dom) (hloc : 64 ∉ loc) :
    (send_email_to_server email server sender receiver net).result = true ↔
      (net server).resolves = true ∧ (net server).socketOk = true ∧
      (net server).connectOk = true ∧
      smtp_receive ((net server).reads 0) ((net server).stale 0) (str "220") = true ∧
      (helo.render dom).length < MAXBUF ∧ (net server).writeOk 0 = true ∧
      smtp_receive ((net server).reads 1) ((net server).stale 1) (str "250") = true ∧
      (mail.render sender).length < MAXBUF ∧ (net server).writeOk 1 = true ∧
      smtp_receive ((net server).reads 2) ((net server).stale 2) (str "250") = true ∧
      (rcpt.render receiver).length < MAXBUF ∧ (net server).writeOk 2 = true ∧
      smtp_receive ((net server).reads 3) ((net server).stale 3) (str "250") = true ∧
      (net server).writeOk 3 = true ∧
      smtp_receive ((net server).reads 4) ((net server).stale 4) (str "354") = true ∧
      (∀ l ∈ lines email, (data.render (chomp l)).length < MAXBUF) ∧
      (∀ j, j < (lines email).length → (net server).writeOk (4 + j) = true) ∧
      (net server).writeOk (4 + (lines email).length) = true ∧
      smtp_receive ((net server).reads 5) ((net server).stale 5) (str "250") = true ∧
      (net server).writeOk (4 + (lines email).length + 1) = true ∧
      smtp_receive ((net server).reads 6) ((net server).stale 6) (str "221") = true := by
  have hat := strchr_at loc dom 64 hloc
  have hdrop : (loc ++ 64 :: dom).drop (loc.length + 1) = dom := by
    simp [List.drop_append]
  subst hs
  unfold send_email_to_server
  rw [hat]
  simp only [hdrop]
  cases hres : (net server).resolves <;> simp only [Bool.not_true, Bool.not_false, if_true, if_false,
    Bool.false_eq_true, false_and, true_and]
  cases hsock : (net server).socketOk <;> simp only [Bool.not_true, Bool.not_false, if_true, if_false,
    Bool.false_eq_true, false_and, true_and]
  cases hconn : (net server).connectOk <;> simp only [Bool.not_true, Bool.not_false, if_true, if_false,
    Bool.false_eq_true, false_and, true_and]
  simp only [expect_result, command_result, sendData_result, finish]
  have hDATA : (data.render (str "DATA")).length < MAXBUF := by decide
  have hdot : (data.render (str ".")).length < MAXBUF := by decide
  have hquit : (data.render (str "QUIT")).length < MAXBUF := by decide
  simp only [hDATA, hdot, hquit, true_and, Nat.zero_add, Nat.reduceAdd]
  simp only [and_true]

/-- The events of a session that goes through, in order. -/
theorem session_of_ok (email server sender receiver : Bytes) (net : Bytes → Peer)
    (loc dom : Bytes) (hs : sender = loc ++ 64 :: dom) (hloc : 64 ∉ loc)
    (h : (send_email_to_server email server sender receiver net).result = true) :
    send_email_to_server email server sender receiver net =
      ⟨true,
        [Ev.socket true, Ev.connect true,
          Ev.read ((net server).reads 0) true,
          Ev.write (helo.render dom) true,
          Ev.read ((net server).reads 1) true,
          Ev.write (mail.render sender) true,
          Ev.read ((net server).reads 2) true,
          Ev.write (rcpt.render receiver) true,
          Ev.read ((net server).reads 3) true,
          Ev.write (data.render (str "DATA")) true,
          Ev.read ((net server).reads 4) true] ++
        dataEvents (lines email) ++
        [Ev.write (data.render (str ".")) true,
          Ev.read ((net server).reads 5) true,
          Ev.write (data.render (str "QUIT")) true,
          Ev.read ((net server).reads 6) true,
          Ev.close],
        []⟩ := by
  rw [session_result_iff email server sender receiver net loc dom hs hloc] at h
  obtain ⟨hres, hsock, hconn, r1, f1, w0, r2, f2, w1, r3, f3, w2, r4, w3, r5, fd, wd, w4, r6,
    w5, r7⟩ := h
  have hat := strchr_at loc dom 64 hloc
  have hdrop : (loc ++ 64 :: dom).drop (loc.length + 1) = dom := by
    simp [List.drop_append]
  subst hs
  have hDATA : (data.render (str "DATA")).length < MAXBUF := by decide
  have hdot : (data.render (str ".")).length < MAXBUF := by decide
  have hquit : (data.render (str "QUIT")).length < MAXBUF := by decide
  unfold send_email_to_server
  rw [hat]
  simp only [hdrop, hres, hsock, hconn, Bool.not_true, Bool.false_eq_true, if_false]
  rw [expect_of_ok _ _ _ _ r1, command_of_ok _ _ _ _ _ f1 w0, expect_of_ok _ _ _ _ r2,
    command_of_ok _ _ _ _ _ f2 w1, expect_of_ok _ _ _ _ r3, command_of_ok _ _ _ _ _ f3 w2,
    expect_of_ok _ _ _ _ r4, command_of_ok _ _ _ _ _ hDATA w3, expect_of_ok _ _ _ _ r5,
    sendData_of_ok _ _ _ fd wd]
  unfold finish
  rw [command_of_ok _ _ _ _ _ hdot w4, expect_of_ok _ _ _ _ r6,
    command_of_ok _ _ _ _ _ hquit w5, expect_of_ok _ _ _ _ r7]
  simp

/-! ## The connection discipline of a session -/

theorem failed_is_last (l : List Ev) (e : Ev) (a : List Ev) (x : Ev) (b : List Ev)
    (hl : ∀ y ∈ l, y.failed = false) (h : l ++ [e] = a ++ x :: b) (hx : x.failed = true) :
    b = [] := by
  rcases List.eq_nil_or_concat b with hb | ⟨b', z, hb⟩
  · exact hb
  · exfalso
    subst hb
    have h2 : l ++ [e] = (a ++ x :: b') ++ [z] := by simpa using h
    have h3 := List.append_inj_left' h2 rfl
    have hm : x ∈ l := by rw [h3]; simp
    have := hl x hm
    rw [hx] at this
    exact Bool.noConfusion this

theorem disciplined_abort (l : List Ev) (e : Ev) (rest : Bytes) (hl : Clean l)
    (he : e.failed = true) : Disciplined ⟨false, l ++ [e, Ev.close], rest⟩ := by
  refine ⟨l ++ [e], by simp, ?_, ?_, ?_⟩
  · intro hm
    rcases List.mem_append.1 hm with h | h
    · exact hl.1 h
    · have : e = Ev.close := (List.mem_singleton.1 h).symm
      rw [this] at he
      exact Bool.noConfusion he
  · intro a x b hab hx
    exact ⟨failed_is_last l e a x b hl.2 hab hx, rfl⟩
  · intro _
    exact ⟨l, e, rfl, he⟩

theorem disciplined_success (l : List Ev) (rest : Bytes) (hl : Clean l) :
    Disciplined ⟨true, l ++ [Ev.close], rest⟩ := by
  refine ⟨l, rfl, hl.1, ?_, ?_⟩
  · intro a x b hab hx
    exfalso
    have := hl.2 x (by rw [hab]; simp)
    rw [hx] at this
    exact Bool.noConfusion this
  · intro h
    exact Bool.noConfusion h

theorem clean_snoc (l : List Ev) (e : Ev) (hl : Clean l) (he : e.failed = false)
    (hc : e ≠ Ev.close) : Clean (l ++ [e]) := by
  constructor
  · intro hm
    rcases List.mem_append.1 hm with h | h
    · exact hl.1 h
    · exact hc (List.mem_singleton.1 h).symm
  · intro y hy
    rcases List.mem_append.1 hy with h | h
    · exact hl.2 y h
    · have : y = e := by simpa using h
      rw [this]; exact he

theorem clean_append_dataEvents (l : List Ev) (ls : List Bytes) (hl : Clean l) :
    Clean (l ++ dataEvents ls) := by
  constructor
  · intro hm
    rcases List.mem_append.1 hm with h | h
    · exact hl.1 h
    · simp [dataEvents] at h
  · intro y hy
    rcases List.mem_append.1 hy with h | h
    · exact hl.2 y h
    · simp only [dataEvents, List.mem_map] at h
      obtain ⟨x, _, rfl⟩ := h
      rfl

theorem expect_disciplined (c : Conn) (code rest : Bytes) (k : Conn → Session)
    (hc : Clean c.log) (hk : ∀ c' : Conn, Clean c'.log → Disciplined (k c')) :
    Disciplined (expect c code rest k) := by
  cases h : smtp_receive (c.reads c.nreads) (c.stale c.nreads) code with
  | true =>
    rw [expect_of_ok c code rest k h]
    exact hk _ (clean_snoc _ _ hc rfl (by simp))
  | false =>
    rw [expect_of_not c code rest k h]
    exact disciplined_abort _ _ _ hc rfl

theorem command_disciplined (c : Conn) (f : Format) (m rest : Bytes) (k : Conn → Session)
    (hc : Clean c.log) (hk : ∀ c' : Conn, Clean c'.log → Disciplined (k c')) :
    Disciplined (command c f m rest k) := by
  by_cases h : (f.render m).length < MAXBUF
  · cases hw : c.writeOk c.nwrites with
    | true =>
      rw [command_of_ok c f m rest k h hw]
      exact hk _ (clean_snoc _ _ hc rfl (by simp))
    | false =>
      rw [command_of_write_error c f m rest k h hw]
      exact disciplined_abort _ _ _ hc rfl
  · rw [command_of_overflow c f m rest k (by omega)]
    exact disciplined_abort _ _ _ hc rfl

theorem sendData_disciplined (k : Conn → Session) (ls : List Bytes) (c : Conn)
    (hc : Clean c.log) (hk : ∀ c' : Conn, Clean c'.log → Disciplined (k c')) :
    Disciplined (sendData k ls c) := by
  induction ls generalizing c with
  | nil => exact hk c hc
  | cons l t ih =>
    have key : sendData k (l :: t) c =
        command c data (chomp l) t.flatten (fun c' => sendData k t c') := by
      simp only [sendData, command]
    rw [key]
    exact command_disciplined c data (chomp l) t.flatten _ hc (fun c' hc' => ih c' hc')

theorem finish_disciplined (c : Conn) (hc : Clean c.log) : Disciplined (finish c) := by
  unfold finish
  apply command_disciplined _ _ _ _ _ hc
  intro c1 h1
  apply expect_disciplined _ _ _ _ h1
  intro c2 h2
  apply command_disciplined _ _ _ _ _ h2
  intro c3 h3
  apply expect_disciplined _ _ _ _ h3
  intro c4 h4
  exact disciplined_success _ _ h4

theorem session_disciplined (email server sender receiver : Bytes) (net : Bytes → Peer)
    (h : Ev.socket true ∈ (send_email_to_server email server sender receiver net).log) :
    Disciplined (send_email_to_server email server sender receiver net) := by
  unfold send_email_to_server at h ⊢
  cases hat : strchr sender 64 with
  | none => rw [hat] at h; simp at h
  | some i =>
    rw [hat] at h
    simp only at h ⊢
    cases hres : (net server).resolves with
    | false => simp [hres] at h
    | true =>
      cases hsock : (net server).socketOk with
      | false => simp [hres, hsock] at h
      | true =>
        cases hconn : (net server).connectOk with
        | false =>
          simp only [hres, hsock, hconn, Bool.not_true, Bool.not_false, Bool.false_eq_true,
            if_false, if_true]
          exact disciplined_abort [Ev.socket true] (Ev.connect false) email
            ⟨by simp, by simp [Ev.failed]⟩ rfl
        | true =>
          simp only [hres, hsock, hconn, Bool.not_true, Bool.false_eq_true, if_false]
          have h0 : Clean [Ev.socket true, Ev.connect true] := ⟨by simp, by simp [Ev.failed]⟩
          apply expect_disciplined _ _ _ _ h0
          intro c1 h1
          apply command_disciplined _ _ _ _ _ h1
          intro c2 h2
          apply expect_disciplined _ _ _ _ h2
          intro c3 h3
          apply command_disciplined _ _ _ _ _ h3
          intro c4 h4
          apply expect_disciplined _ _ _ _ h4
          intro c5 h5
          apply command_disciplined _ _ _ _ _ h5
          intro c6 h6
          apply expect_disciplined _ _ _ _ h6
          intro c7 h7
          apply command_disciplined _ _ _ _ _ h7
          intro c8 h8
          apply expect_disciplined _ _ _ _ h8
          intro c9 h9
          exact sendData_disciplined _ _ _ h9 (fun c' hc' => finish_disciplined c' hc')

/-! ## Further lemmas used by the session theorems -/

theorem strpbrk_some {s accept : Bytes} {i : Nat} (h : strpbrk s accept = some i) :
    ∃ c, c ∈ accept ∧ s = s.take i ++ c :: s.drop (i + 1) ∧ (∀ b ∈ s.take i, b ∉ accept) ∧
      i < s.length := by
  unfold strpbrk at h
  split at h
  · rename_i hlt
    simp only [Option.some.injEq] at h
    have hsplit := List.takeWhile_append_dropWhile (fun b => decide (b ∉ accept)) s
    have htake : s.take i = s.takeWhile (fun b => decide (b ∉ accept)) := by
      rw [← h]; exact take_length_takeWhile _ s
    have hdrop : s.drop i = s.dropWhile (fun b => decide (b ∉ accept)) := by
      have h1 : s.take i ++ s.drop i = s := List.take_append_drop i s
      rw [htake] at h1
      exact List.append_cancel_left (h1.trans hsplit.symm)
    rcases dropWhile_head_false (fun b => decide (b ∉ accept)) s with h0 | ⟨c, t, hc, hpc⟩
    · exfalso
      rw [h0, List.append_nil] at hsplit
      rw [hsplit] at hlt
      exact Nat.lt_irrefl _ hlt
    · refine ⟨c, by simpa using hpc, ?_, ?_, by rw [← h]; exact hlt⟩
      · have hd1 : s.drop (i + 1) = t := by
          have : s.drop (i + 1) = (s.drop i).drop 1 := by
            rw [List.drop_drop]
          rw [this, hdrop, hc]; rfl
        rw [hd1, ← hc, ← hdrop, List.take_append_drop]
      · intro b hb
        rw [htake] at hb
        have := List.mem_takeWhile_imp hb
        simpa using this
  · exact Option.noConfusion h

theorem strchr_some {s : Bytes} {c i : Nat} (h : strchr s c = some i) :
    s = s.take i ++ c :: s.drop (i + 1) ∧ c ∉ s.take i := by
  obtain ⟨x, hx, hs, hall, _⟩ := strpbrk_some h
  have hxc : x = c := by simpa using hx
  subst hxc
  exact ⟨hs, fun hm => hall x hm (by simp)⟩

theorem session_result_no_at (email server sender receiver : Bytes) (net : Bytes → Peer)
    (h : strchr sender 64 = none) :
    (send_email_to_server email server sender receiver net).result = false := by
  unfold send_email_to_server
  rw [h]

theorem session_overflow (email server sender receiver : Bytes) (net : Bytes → Peer)
    (h : MAXBUF ≤ (mail.render sender).length ∨ MAXBUF ≤ (rcpt.render receiver).length ∨
      ∃ l ∈ lines email, MAXBUF ≤ (data.render (chomp l)).length) :
    (send_email_to_server email server sender receiver net).result = false := by
  cases hat : strchr sender 64 with
  | none => exact session_result_no_at _ _ _ _ _ hat
  | some i =>
    obtain ⟨hs, hloc⟩ := strchr_some hat
    cases hr : (send_email_to_server email server sender receiver net).result with
    | false => rfl
    | true =>
      exfalso
      rw [session_result_iff email server sender receiver net _ _ hs hloc] at hr
      obtain ⟨_, _, _, _, _, _, _, f2, _, _, f3, _, _, _, _, fd, _⟩ := hr
      rcases h with h | h | ⟨l, hl, h⟩
      · omega
      · omega
      · have := fd l hl
        omega

theorem written_append (a b : List Ev) : written (a ++ b) = written a ++ written b := by
  simp [written, List.filterMap_append]

theorem written_dataEvents (ls : List Bytes) :
    written (dataEvents ls) = ls.map (fun l => data.render (chomp l)) := by
  induction ls with
  | nil => rfl
  | cons l t ih =>
    have : dataEvents (l :: t) = [Ev.write (data.render (chomp l)) true] ++ dataEvents t := rfl
    rw [this, written_append, ih]
    rfl

theorem firstLine_append_stop (s term : Bytes) (hs : ∀ b ∈ s, b ≠ 0 ∧ b ≠ 13 ∧ b ≠ 10)
    (ht : term = [] ∨ ∃ b t, term = b :: t ∧ (b = 0 ∨ b = 13 ∨ b = 10)) :
    firstLine (s ++ term) = s := by
  unfold firstLine
  apply takeWhile_append_stop
  · intro b hb
    simpa using hs b hb
  · rcases ht with h | ⟨b, t, h, hb⟩
    · left; exact h
    · right
      refine ⟨b, t, h, ?_⟩
      rcases hb with rfl | rfl | rfl <;> simp

theorem eq_dropLast_append_of_getLast? {l : Bytes} {x : Nat} (h : l.getLast? = some x) :
    l = l.dropLast ++ [x] := by
  rcases List.eq_nil_or_concat l with h0 | ⟨t, y, ht⟩
  · rw [h0] at h; simp at h
  · subst ht
    rw [List.concat_eq_append] at h ⊢
    rw [List.getLast?_concat] at h
    simp only [Option.some.injEq] at h
    subst h
    simp

theorem firstLine_eq_stripTerminator (l : Bytes)
    (h : ∀ b ∈ stripTerminator l, b ≠ 0 ∧ b ≠ 13 ∧ b ≠ 10) :
    firstLine l = stripTerminator l := by
  unfold stripTerminator at h ⊢
  by_cases h10 : l.getLast? = some 10
  · rw [if_pos h10] at h ⊢
    have e1 := eq_dropLast_append_of_getLast? h10
    by_cases h13 : l.dropLast.getLast? = some 13
    · rw [if_pos h13] at h ⊢
      have e2 := eq_dropLast_append_of_getLast? h13
      have e3 : l = l.dropLast.dropLast ++ [13, 10] := by
        conv_lhs => rw [e1, e2]
        simp
      conv_lhs => rw [e3]
      exact firstLine_append_stop _ _ h (Or.inr ⟨13, [10], rfl, by simp⟩)
    · rw [if_neg h13] at h ⊢
      conv_lhs => rw [e1]
      exact firstLine_append_stop _ _ h (Or.inr ⟨10, [], rfl, by simp⟩)
  · rw [if_neg h10] at h ⊢
    by_cases h13 : l.getLast? = some 13
    · rw [if_pos h13] at h ⊢
      have e1 := eq_dropLast_append_of_getLast? h13
      conv_lhs => rw [e1]
      exact firstLine_append_stop _ _ h (Or.inr ⟨13, [], rfl, by simp⟩)
    · rw [if_neg h13] at h ⊢
      have := firstLine_append_stop l [] h (Or.inl rfl)
      simpa using this

/-! ## Lemmas on `fgets` and on the lines of a stream -/

theorem fgetsAux_append (k : Nat) (s : Bytes) : (fgetsAux k s).1 ++ (fgetsAux k s).2 = s := by
  induction s generalizing k with
  | nil => cases k <;> simp [fgetsAux]
  | cons c t ih =>
    cases k with
    | zero => simp [fgetsAux]
    | succ k =>
      by_cases hc : c = 10
      · simp [fgetsAux, hc]
      · simp [fgetsAux, hc, ih k]

theorem fgetsAux_snd_length (k : Nat) (c : Nat) (t : Bytes) :
    (fgetsAux (k + 1) (c :: t)).2.length ≤ t.length := by
  have h := congrArg List.length (fgetsAux_append (k + 1) (c :: t))
  have h1 : 1 ≤ (fgetsAux (k + 1) (c :: t)).1.length := by
    by_cases hc : c = 10 <;> simp [fgetsAux, hc]
  simp only [List.length_append, List.length_cons] at h
  omega

/-- Fuel: the loop of `fgets` calls reads the whole stream, each byte once and in order. -/
theorem fgetsLoop_flatten (fuel : Nat) (s : Bytes) (h : s.length ≤ fuel) :
    (fgetsLoop MAXBUF fuel s).flatten = s := by
  induction fuel generalizing s with
  | zero =>
    have : s = [] := List.length_eq_zero.1 (Nat.le_zero.1 h)
    subst this
    simp [fgetsLoop]
  | succ fuel ih =>
    cases s with
    | nil => simp [fgetsLoop, fgets]
    | cons c t =>
      have hlen : (fgetsAux (MAXBUF - 1) (c :: t)).2.length ≤ t.length :=
        fgetsAux_snd_length 4094 c t
      have happ := fgetsAux_append (MAXBUF - 1) (c :: t)
      simp only [fgetsLoop, fgets, List.flatten_cons]
      rw [ih _ (by simp only [List.length_cons] at h; omega)]
      exact happ

theorem lines_flatten (s : Bytes) : (lines s).flatten = s :=
  fgetsLoop_flatten s.length s (Nat.le_refl _)

theorem fgetsAux_line (k : Nat) (body rest : Bytes) (h10 : 10 ∉ body) (hlen : body.length < k) :
    fgetsAux k (body ++ 10 :: rest) = (body ++ [10], rest) := by
  induction body generalizing k with
  | nil =>
    cases k with
    | zero => simp at hlen
    | succ k => simp [fgetsAux]
  | cons c t ih =>
    cases k with
    | zero => simp at hlen
    | succ k =>
      have hc : c ≠ 10 := fun e => h10 (by simp [e])
      have ht : 10 ∉ t := fun hm => h10 (List.mem_cons_of_mem _ hm)
      have := ih k ht (by simpa using hlen)
      simp [fgetsAux, hc, this]

theorem fgetsLoop_properLines (fuel : Nat) (ls : List Bytes) (h : ∀ l ∈ ls, ProperLine l)
    (hf : ls.length ≤ fuel) : fgetsLoop MAXBUF fuel ls.flatten = ls := by
  induction ls generalizing fuel with
  | nil => cases fuel <;> simp [fgetsLoop, fgets]
  | cons l t ih =>
    obtain ⟨body, rfl, h10, hlen⟩ := h l (List.mem_cons_self _ _)
    cases fuel with
    | zero => simp at hf
    | succ fuel =>
      have hflat : ((body ++ [10]) :: t).flatten = body ++ 10 :: t.flatten := by simp
      have haux := fgetsAux_line (MAXBUF - 1) body t.flatten h10 hlen
      rw [hflat]
      cases hb : body ++ 10 :: t.flatten with
      | nil => simp at hb
      | cons c u =>
        simp only [fgetsLoop, fgets]
        rw [← hb, haux]
        simp only
        rw [ih fuel (fun x hx => h x (List.mem_cons_of_mem _ hx))
          (by simpa using hf)]

theorem lines_properLines (ls : List Bytes) (h : ∀ l ∈ ls, ProperLine l) :
    lines ls.flatten = ls := by
  apply fgetsLoop_properLines _ _ h
  induction ls with
  | nil => simp
  | cons l t ih =>
    obtain ⟨body, rfl, _, _⟩ := h _ (List.mem_cons_self _ _)
    have := ih (fun x hx => h x (List.mem_cons_of_mem _ hx))
    simp only [List.flatten_cons, List.length_append, List.length_cons, List.length_singleton,
      List.length_nil]
    omega

/-! ## Lemmas on the resolver -/

theorem strpbrk_at (l r accept : Bytes) (c : Nat) (hc : c ∈ accept)
    (hl : ∀ b ∈ l, b ∉ accept) : strpbrk (l ++ c :: r) accept = some l.length := by
  have hall : ∀ b ∈ l, (fun b : Nat => decide (b ∉ accept)) b = true := by
    intro b hb
    simpa using hl b hb
  have htw : (l ++ c :: r).takeWhile (fun b => decide (b ∉ accept)) = l := by
    apply takeWhile_append_stop _ _ _ hall
    right
    exact ⟨c, r, rfl, by simpa using hc⟩
  unfold strpbrk
  rw [htw]
  simp

theorem cstr_of_no_nul (s : Bytes) (h : ∀ b ∈ s, b ≠ 0) : cstr s = s := by
  unfold cstr
  rw [List.takeWhile_eq_self_iff]
  intro b hb
  simpa using h b hb

theorem isdigit_bounds {d : Nat} (h : isdigit d = true) : 48 ≤ d ∧ d ≤ 57 := by
  simpa [isdigit] using h

theorem parseRecord_line (r : MX) (h : r.WellFormed) :
    parseRecord r.line = Slot.host r.host := by
  obtain ⟨_, _, hdig, hne, _, hhost⟩ := h
  have hnul : ∀ b ∈ r.line, b ≠ 0 := by
    intro b hb
    simp only [MX.line, List.append_assoc, List.mem_append, List.mem_singleton] at hb
    rcases hb with hb | hb | hb | hb
    · have := isdigit_bounds (hdig b hb); omega
    · omega
    · exact (hhost b hb).1
    · omega
  have hline : r.line = r.priority ++ 32 :: (r.host ++ [10]) := by simp [MX.line]
  have hpb : strpbrk r.line [32, 9] = some r.priority.length := by
    rw [hline]
    apply strpbrk_at _ _ _ _ (by simp)
    intro b hb
    have := isdigit_bounds (hdig b hb)
    simp only [List.mem_cons, List.mem_singleton, List.not_mem_nil, or_false, not_or]
    omega
  have hdrop : r.line.drop (r.priority.length + 1) = r.host ++ [10] := by
    rw [hline]; simp [List.drop_append]
  obtain ⟨c, cs, hcs⟩ := List.exists_cons_of_ne_nil hne
  have hsp : ∀ b ∈ r.host, isspace b = false := fun b hb => (hhost b hb).2
  have hdw : (r.host ++ [10]).dropWhile (fun b => isspace b) = r.host ++ [10] := by
    rw [hcs]
    have := hsp c (by rw [hcs]; simp)
    simp [List.dropWhile_cons, this]
  have hcut : (r.host ++ [10]).takeWhile (fun b => decide (b ∉ crlf)) = r.host := by
    apply takeWhile_append_stop
    · intro b hb
      have := hsp b hb
      simp only [isspace, Bool.or_eq_false_iff, beq_eq_false_iff_ne, Bool.and_eq_false_iff,
        decide_eq_false_iff_not, not_le] at this
      simp only [crlf, List.mem_cons, List.mem_singleton, List.not_mem_nil, or_false, not_or,
        decide_eq_true_eq]
      omega
    · right
      exact ⟨10, [], rfl, by simp [crlf]⟩
  unfold parseRecord
  rw [cstr_of_no_nul _ hnul, hpb]
  simp only [hdrop, hdw, terminateAt, strcspn]
  rw [take_length_takeWhile, hcut]

theorem numKey_line (r : MX) (h : r.WellFormed) : numKey r.line = r.value := by
  obtain ⟨_, _, hdig, _⟩ := h
  have hline : r.line = r.priority ++ (32 :: (r.host ++ [10])) := by simp [MX.line]
  unfold numKey MX.value
  rw [hline, takeWhile_append_stop _ _ _ (fun b hb => hdig b hb)
    (Or.inr ⟨32, _, rfl, by decide⟩)]

theorem properLine_line (r : MX) (h : r.WellFormed) : ProperLine r.line := by
  obtain ⟨_, hplen, hdig, _, hhlen, hhost⟩ := h
  refine ⟨r.priority ++ [32] ++ r.host, by simp [MX.line], ?_, ?_⟩
  · intro hm
    simp only [List.append_assoc, List.mem_append, List.mem_singleton] at hm
    rcases hm with hb | hb | hb
    · have := isdigit_bounds (hdig 10 hb); omega
    · omega
    · have := (hhost 10 hb).2
      simp [isspace] at this
  · simp only [List.length_append, List.length_singleton, MAXBUF]
    omega

theorem sort_n_lines (recs : List MX) (h : ∀ r ∈ recs, r.WellFormed) :
    sort_n (recs.map MX.line) = (sortedRecords recs).map MX.line := by
  unfold sort_n sortedRecords
  symm
  apply List.map_insertionSort
  intro a ha b hb
  rw [numKey_line a (h a ha), numKey_line b (h b hb)]

theorem sortedRecords_perm (recs : List MX) : (sortedRecords recs).Perm recs :=
  List.perm_insertionSort _ recs

theorem sortedRecords_pairwise (recs : List MX) (hd : (recs.map MX.value).Nodup) :
    (sortedRecords recs).Pairwise (fun a b => a.value < b.value) := by
  haveI : IsTotal MX (fun a b => a.value ≤ b.value) := ⟨fun a b => Nat.le_total _ _⟩
  haveI : IsTrans MX (fun a b => a.value ≤ b.value) := ⟨fun a b c => Nat.le_trans⟩
  have hs : (sortedRecords recs).Pairwise (fun a b => a.value ≤ b.value) :=
    List.sorted_insertionSort (fun a b : MX => a.value ≤ b.value) recs
  have hnd : ((sortedRecords recs).map MX.value).Nodup :=
    ((sortedRecords_perm recs).map MX.value).nodup_iff.2 hd
  have hne : (sortedRecords recs).Pairwise (fun a b => a.value ≠ b.value) := by
    unfold List.Nodup at hnd
    rw [List.pairwise_map] at hnd
    exact hnd
  exact (hs.and hne).imp (fun ⟨h1, h2⟩ => Nat.lt_of_le_of_ne h1 h2)

theorem get_servers_pipeline (hostname : Bytes) (popen : Bytes → Option Bytes)
    (recs : List MX)
    (hcmd : (command_template.render hostname).length < MAXBUF)
    (hpopen : popen (command_template.render hostname) = some (pipeline recs))
    (hwf : ∀ r ∈ recs, r.WellFormed) (hN : recs.length < MAXSERVS) :
    get_servers hostname popen =
      some ⟨(sortedRecords recs).map (fun r => Slot.host r.host), true⟩ := by
  have hlen : (sortedRecords recs).length = recs.length := (sortedRecords_perm recs).length_eq
  have hwf' : ∀ r ∈ sortedRecords recs, r.WellFormed :=
    fun r hr => hwf r ((sortedRecords_perm recs).mem_iff.1 hr)
  have hlines : lines (pipeline recs) = (sortedRecords recs).map MX.line := by
    unfold pipeline
    rw [sort_n_lines recs hwf]
    apply lines_properLines
    intro l hl
    obtain ⟨r, hr, rfl⟩ := List.mem_map.1 hl
    exact properLine_line r (hwf' r hr)
  have h1 : (snprintf MAXBUF command_template hostname).1 =
      (command_template.render hostname).length := rfl
  unfold get_servers
  rw [h1, snprintf_fits _ _ hcmd, if_neg (by omega), hpopen]
  simp only [hlines]
  have htake : ((sortedRecords recs).map MX.line).take MAXSERVS =
      (sortedRecords recs).map MX.line := by
    apply List.take_of_length_le
    simp only [List.length_map, hlen]
    omega
  rw [htake]
  congr 2
  · rw [List.map_map]
    apply List.map_congr_left
    intro r hr
    exact parseRecord_line r (hwf' r hr)
  · simp only [List.length_map, hlen, decide_eq_true_eq]
    exact hN

theorem get_servers_slots_le (hostname : Bytes) (popen : Bytes → Option Bytes) (s : Servers)
    (h : get_servers hostname popen = some s) : s.slots.length ≤ MAXSERVS := by
  unfold get_servers at h
  split at h
  · exact Option.noConfusion h
  · split at h
    · exact Option.noConfusion h
    · simp only [Option.some.injEq] at h
      rw [← h]
      simp [List.length_take]

/-! ## Lemmas on the header scan -/

theorem strpbrk_none (s accept : Bytes) (h : ∀ b ∈ s, b ∉ accept) : strpbrk s accept = none := by
  have htw : s.takeWhile (fun b => decide (b ∉ accept)) = s := by
    rw [List.takeWhile_eq_self_iff]
    intro b hb
    simpa using h b hb
  unfold strpbrk
  rw [htw]
  simp

theorem strchr_none (s : Bytes) (c : Nat) (h : c ∉ s) : strchr s c = none := by
  apply strpbrk_none
  intro b hb hm
  have : b = c := by simpa using hm
  exact h (this ▸ hb)

theorem bracketed_of_shape (l a x b : Bytes) (h : cstr l = a ++ 60 :: (x ++ 62 :: b))
    (ha : 60 ∉ a) (hx : 62 ∉ x) : bracketed l = some x := by
  unfold bracketed
  rw [h, strchr_at a _ 60 ha]
  have hdrop : (a ++ 60 :: (x ++ 62 :: b)).drop (a.length + 1) = x ++ 62 :: b := by
    simp [List.drop_append]
  simp only [hdrop]
  rw [strchr_at x b 62 hx]
  simp [terminateAt]

theorem bracketed_some_shape {l x : Bytes} (h : bracketed l = some x) :
    ∃ a b, cstr l = a ++ 60 :: (x ++ 62 :: b) ∧ 60 ∉ a ∧ 62 ∉ x := by
  unfold bracketed at h
  cases h1 : strchr (cstr l) 60 with
  | none => rw [h1] at h; exact Option.noConfusion h
  | some i =>
    rw [h1] at h
    simp only at h
    cases h2 : strchr ((cstr l).drop (i + 1)) 62 with
    | none => rw [h2] at h; exact Option.noConfusion h
    | some j =>
      rw [h2] at h
      simp only [Option.some.injEq, terminateAt] at h
      obtain ⟨e1, n1⟩ := strchr_some h1
      obtain ⟨e2, n2⟩ := strchr_some h2
      refine ⟨(cstr l).take i, ((cstr l).drop (i + 1)).drop (j + 1), ?_, n1, ?_⟩
      · rw [← h, ← e2]
        exact e1
      · rw [← h]; exact n2

theorem bracketedFrom_skip (a t : Bytes) (ha : 60 ∉ a) :
    bracketedFrom (a ++ t) none = bracketedFrom t none := by
  induction a with
  | nil => rfl
  | cons c u ih =>
    have hc : c ≠ 60 := fun e => ha (by simp [e])
    have hu : 60 ∉ u := fun hm => ha (List.mem_cons_of_mem _ hm)
    simp [bracketedFrom, hc, ih hu]

theorem bracketedFrom_inside (x b acc : Bytes) (hx : 62 ∉ x) :
    bracketedFrom (x ++ 62 :: b) (some acc) = (acc ++ x) :: bracketedFrom b none := by
  induction x generalizing acc with
  | nil => simp [bracketedFrom]
  | cons c u ih =>
    have hc : c ≠ 62 := fun e => hx (by simp [e])
    have hu : 62 ∉ u := fun hm => hx (List.mem_cons_of_mem _ hm)
    simp [bracketedFrom, hc, ih (acc ++ [c]) hu]

theorem bracketedFrom_shape (a x b : Bytes) (ha : 60 ∉ a) (hx : 62 ∉ x) :
    bracketedFrom (a ++ 60 :: (x ++ 62 :: b)) none = x :: bracketedFrom b none := by
  rw [bracketedFrom_skip _ _ ha]
  simp only [bracketedFrom, if_true]
  rw [bracketedFrom_inside _ _ _ hx]
  simp

theorem bracketed_none_of_no_string (l : Bytes) (h : bracketedFrom (cstr l) none = []) :
    bracketed l = none := by
  cases hb : bracketed l with
  | none => rfl
  | some x =>
    exfalso
    obtain ⟨a, b, e, ha, hx⟩ := bracketed_some_shape hb
    rw [e, bracketedFrom_shape a x b ha hx] at h
    exact List.noConfusion h

theorem bracketed_some_count {l x : Bytes} (h : bracketed l = some x) :
    1 ≤ (bracketedFrom (cstr l) none).length := by
  obtain ⟨a, b, e, ha, hx⟩ := bracketed_some_shape h
  rw [e, bracketedFrom_shape a x b ha hx]
  simp

theorem scanHeaders_skip (ls more : List Bytes) (sender : Option Bytes)
    (h : ∀ l ∈ ls, bracketedFrom (cstr l) none = []) :
    scanHeaders (ls ++ more) sender = scanHeaders more sender := by
  induction ls with
  | nil => rfl
  | cons l t ih =>
    have hl := bracketed_none_of_no_string l (h l (List.mem_cons_self _ _))
    have ht := ih (fun x hx => h x (List.mem_cons_of_mem _ hx))
    cases sender with
    | none =>
      simp only [List.cons_append, scanHeaders]
      cases strchr (cstr l) 60 with
      | none => simpa using ht
      | some i => simpa [hl] using ht
    | some s =>
      simp only [List.cons_append, scanHeaders, hl]
      exact ht

theorem scanHeaders_sender (l : Bytes) (more : List Bytes) (s : Bytes)
    (h : bracketed l = some s) :
    scanHeaders (l :: more) none = scanHeaders more (some s) := by
  obtain ⟨a, b, e, ha, _⟩ := bracketed_some_shape h
  have : strchr (cstr l) 60 = some a.length := by rw [e]; exact strchr_at a _ 60 ha
  simp only [scanHeaders, this, h]

theorem scanHeaders_count (ls : List Bytes) (sender : Option Bytes) (r : Bytes)
    (h : (scanHeaders ls sender).2.1 = some r) :
    (if sender = none then 2 else 1) ≤
      (ls.flatMap (fun l => bracketedFrom (cstr l) none)).length := by
  induction ls generalizing sender with
  | nil => simp [scanHeaders] at h
  | cons l t ih =>
    simp only [List.flatMap_cons, List.length_append]
    cases sender with
    | none =>
      simp only [if_true]
      simp only [scanHeaders] at h
      cases h1 : strchr (cstr l) 60 with
      | none =>
        rw [h1] at h
        have := ih none h
        simp only [if_true] at this
        omega
      | some i =>
        rw [h1] at h
        simp only at h
        cases hb : bracketed l with
        | none =>
          rw [hb] at h
          have := ih none h
          simp only [if_true] at this
          omega
        | some s =>
          rw [hb] at h
          have h2 := ih (some s) h
          have h3 := bracketed_some_count hb
          simp only [reduceCtorEq, if_false] at h2
          omega
    | some s =>
      simp only [reduceCtorEq, if_false]
      simp only [scanHeaders] at h
      cases hb : bracketed l with
      | none =>
        rw [hb] at h
        have := ih (some s) h
        simp only [reduceCtorEq, if_false] at this
        omega
      | some x =>
        have h3 := bracketed_some_count hb
        omega

/-! ## Lemmas on the loop over the servers -/

theorem tryServers_all_fail (content sender receiver : Bytes) (net : Nat → Bytes → Peer)
    (servers : List Bytes) (i : Nat) (email : FILE) (hc : email.content = content)
    (h : ∀ j t, servers[j]? = some t →
      (send_email_to_server content t sender receiver (net (i + j))).result = false) :
    (tryServers sender receiver net i (servers.map Slot.host) email).1 = false ∧
    (tryServers sender receiver net i (servers.map Slot.host) email).2.1.map Attempt.key =
      servers.map (fun t => (t, content)) ∧
    (tryServers sender receiver net i (servers.map Slot.host) email).2.2 = false := by
  induction servers generalizing i email with
  | nil => simp [tryServers]
  | cons s more ih =>
    have h0 : (send_email_to_server content s sender receiver (net i)).result = false := by
      simpa using h 0 s (by simp)
    have hrest := ih (i + 1)
      ⟨email.content, (send_email_to_server content s sender receiver (net i)).rest⟩ hc
      (fun j t hj => by
        have := h (j + 1) t (by simpa using hj)
        simpa [Nat.add_assoc, Nat.add_comm 1 j] using this)
    simp only [List.map_cons, tryServers, rewind, hc, h0, Bool.false_eq_true, if_false]
    rw [hc] at hrest
    exact ⟨hrest.1, by simp [Attempt.key, hrest.2.1], hrest.2.2⟩

theorem tryServers_first_success (content sender receiver : Bytes) (net : Nat → Bytes → Peer)
    (pre : List Bytes) (s : Bytes) (post : List Bytes) (i : Nat) (email : FILE)
    (hc : email.content = content)
    (h : ∀ j t, pre[j]? = some t →
      (send_email_to_server content t sender receiver (net (i + j))).result = false)
    (hs : (send_email_to_server content s sender receiver (net (i + pre.length))).result = true) :
    (tryServers sender receiver net i ((pre ++ s :: post).map Slot.host) email).1 = true ∧
    (tryServers sender receiver net i ((pre ++ s :: post).map Slot.host) email).2.1.map
      Attempt.key = (pre ++ [s]).map (fun t => (t, content)) ∧
    (tryServers sender receiver net i ((pre ++ s :: post).map Slot.host) email).2.2 = false := by
  induction pre generalizing i email with
  | nil =>
    have hs' : (send_email_to_server content s sender receiver (net i)).result = true := by
      simpa using hs
    simp [tryServers, rewind, hc, hs', Attempt.key]
  | cons p more ih =>
    have h0 : (send_email_to_server content p sender receiver (net i)).result = false := by
      simpa using h 0 p (by simp)
    have hrest := ih (i + 1)
      ⟨email.content, (send_email_to_server content p sender receiver (net i)).rest⟩ hc
      (fun j t hj => by
        have := h (j + 1) t (by simpa using hj)
        simpa [Nat.add_assoc, Nat.add_comm 1 j] using this)
      (by simpa [Nat.add_assoc, Nat.add_comm 1] using hs)
    simp only [List.cons_append, List.map_cons, tryServers, rewind, hc, h0, Bool.false_eq_true,
      if_false]
    rw [hc] at hrest
    exact ⟨hrest.1, congrArg (List.cons (p, content)) hrest.2.1, hrest.2.2⟩

/-! ## The session theorems -/

/-- C1: with a sender `local@domain`, outbound lines that fit the buffer, a connection
that opens, writes that succeed and seven reads that each give a reply carrying a code
(`c1 .. c7`, each followed by a space or by the line terminator), whatever the memory
after the bytes read holds, `send_email_to_server` returns success exactly when the seven
codes are 220, 250, 250, 250, 354, 250, 221 in that order; so it succeeds on that
sequence and fails as soon as one reply carries another code. -/
theorem session_succeeds_iff_expected_codes (email server sender receiver : Bytes)
    (net : Bytes → Peer) (loc dom c1 c2 c3 c4 c5 c6 c7 : Bytes)
    (hs : sender = loc ++ 64 :: dom) (hloc : 64 ∉ loc)
    (hmail : (mail.render sender).length < MAXBUF)
    (hrcpt : (rcpt.render receiver).length < MAXBUF)
    (hdata : ∀ l ∈ lines email, (data.render (chomp l)).length < MAXBUF)
    (hres : (net server).resolves = true) (hsock : (net server).socketOk = true)
    (hconn : (net server).connectOk = true)
    (hwrite : ∀ n, (net server).writeOk n = true)
    (h1 : Answers (net server) 0 c1) (h2 : Answers (net server) 1 c2)
    (h3 : Answers (net server) 2 c3) (h4 : Answers (net server) 3 c4)
    (h5 : Answers (net server) 4 c5) (h6 : Answers (net server) 5 c6)
    (h7 : Answers (net server) 6 c7) :
    (send_email_to_server email server sender receiver net).result = true ↔
      [c1, c2, c3, c4, c5, c6, c7] = expectedCodes := by
  have hhelo : (helo.render dom).length < MAXBUF := by
    rw [render_helo_length]
    rw [render_mail_length, hs] at hmail
    simp only [List.length_append, List.length_cons] at hmail
    omega
  rw [session_result_iff email server sender receiver net loc dom hs hloc]
  simp only [hres, hsock, hconn, hwrite, hmail, hrcpt, hhelo,
    smtp_receive_answers h1, smtp_receive_answers h2, smtp_receive_answers h3,
    smtp_receive_answers h4, smtp_receive_answers h5, smtp_receive_answers h6,
    smtp_receive_answers h7, decide_eq_true_eq, true_and, implies_true]
  simp only [expectedCodes, List.cons.injEq, and_true]
  constructor
  · rintro ⟨a1, a2, a3, a4, a5, _, a6, a7⟩
    exact ⟨a1, a2, a3, a4, a5, a6, a7⟩
  · rintro ⟨a1, a2, a3, a4, a5, a6, a7⟩
    exact ⟨a1, a2, a3, a4, a5, hdata, a6, a7⟩

/-- C1, at a concrete run: the sample message sent to a server that answers with the
expected codes. -/
theorem session_succeeds_iff_expected_codes_witness :
    (send_email_to_server sampleEmail (str "mx.d.com") (str "a@b.com") (str "c@d.com")
      (fun _ => acceptingPeer)).result = true ↔
      [str "220", str "250", str "250", str "250", str "354", str "250", str "221"] =
        expectedCodes :=
  session_succeeds_iff_expected_codes sampleEmail (str "mx.d.com") (str "a@b.com")
    (str "c@d.com") (fun _ => acceptingPeer) (str "a") (str "b.com")
    (str "220") (str "250") (str "250") (str "250") (str "354") (str "250") (str "221")
    (by decide) (by decide) (by decide) (by decide) (by decide) rfl rfl rfl
    (fun _ => rfl) ⟨str "220 mx ready\r\n", rfl, by decide⟩
    ⟨str "250 hello\r\n", rfl, by decide⟩ ⟨str "250 ok\r\n", rfl, by decide⟩
    ⟨str "250 ok\r\n", rfl, by decide⟩ ⟨str "354 go ahead\r\n", rfl, by decide⟩
    ⟨str "250 queued\r\n", rfl, by decide⟩ ⟨str "221 bye\r\n", rfl, by decide⟩

/-- C6, as stated, fails: a line with a CR inside it is sent cut at that CR, not with
only its terminator removed; the session still runs to success. -/
theorem written_bytes_counterexample :
    (send_email_to_server (str "hello\rxx\n") (str "mx.d.com") (str "a@b.com")
      (str "c@d.com") (fun _ => acceptingPeer)).result = true ∧
    written (send_email_to_server (str "hello\rxx\n") (str "mx.d.com") (str "a@b.com")
      (str "c@d.com") (fun _ => acceptingPeer)).log =
      [str "HELO b.com\r\n", str "MAIL FROM: <a@b.com>\r\n", str "RCPT TO: <c@d.com>\r\n",
        str "DATA\r\n", str "hello\r\n", str ".\r\n", str "QUIT\r\n"] ∧
    written (send_email_to_server (str "hello\rxx\n") (str "mx.d.com") (str "a@b.com")
      (str "c@d.com") (fun _ => acceptingPeer)).log ≠
      specifiedBytes (str "b.com") (str "a@b.com") (str "c@d.com") (str "hello\rxx\n") := by
  decide

/-- C6, amended: a session that runs to success has written, in order, `HELO <domain>`,
`MAIL FROM: <sender>`, `RCPT TO: <recipient>`, `DATA`, then every line of the message
source from its first line on, each cut at its first NUL, CR or LF, then a lone `.`, then
`QUIT`, each followed by exactly CRLF; and for a line that holds no NUL, CR or LF outside
its terminator the cut is the line with its terminator removed, content unchanged. -/
theorem written_bytes_of_success (email server sender receiver : Bytes) (net : Bytes → Peer)
    (loc dom : Bytes) (hs : sender = loc ++ 64 :: dom) (hloc : 64 ∉ loc)
    (h : (send_email_to_server email server sender receiver net).result = true) :
    written (send_email_to_server email server sender receiver net).log =
      [str "HELO " ++ dom ++ str "\r\n", str "MAIL FROM: <" ++ sender ++ str ">\r\n",
        str "RCPT TO: <" ++ receiver ++ str ">\r\n", str "DATA\r\n"] ++
      (lines email).map (fun l => firstLine l ++ str "\r\n") ++
      [str ".\r\n", str "QUIT\r\n"] ∧
    ∀ l ∈ lines email, (∀ b ∈ stripTerminator l, b ≠ 0 ∧ b ≠ 13 ∧ b ≠ 10) →
      firstLine l = stripTerminator l := by
  refine ⟨?_, fun l _ hl => firstLine_eq_stripTerminator l hl⟩
  rw [session_of_ok email server sender receiver net loc dom hs hloc h]
  simp only [written_append, written_dataEvents]
  have hc : (fun l => data.render (chomp l)) = (fun l => firstLine l ++ str "\r\n") := by
    funext l
    simp [Format.render, data, chomp_eq]
  rw [hc]
  simp [written, Format.render, helo, mail, rcpt, data]
  decide

/-- C6 amended, at a concrete run: the sample message sent to an accepting server. -/
theorem written_bytes_of_success_witness :
    written (send_email_to_server sampleEmail (str "mx.d.com") (str "a@b.com")
      (str "c@d.com") (fun _ => acceptingPeer)).log =
      [str "HELO " ++ str "b.com" ++ str "\r\n",
        str "MAIL FROM: <" ++ str "a@b.com" ++ str ">\r\n",
        str "RCPT TO: <" ++ str "c@d.com" ++ str ">\r\n", str "DATA\r\n"] ++
      (lines sampleEmail).map (fun l => firstLine l ++ str "\r\n") ++
      [str ".\r\n", str "QUIT\r\n"] ∧
    ∀ l ∈ lines sampleEmail, (∀ b ∈ stripTerminator l, b ≠ 0 ∧ b ≠ 13 ∧ b ≠ 10) →
      firstLine l = stripTerminator l :=
  written_bytes_of_success sampleEmail (str "mx.d.com") (str "a@b.com") (str "c@d.com")
    (fun _ => acceptingPeer) (str "a") (str "b.com") (by decide) (by decide) (by decide)

/-- C7: whenever `send_email_to_server` has opened a socket, its log ends with the one
`close` of the connection, on the success path and on every failure path; a step that
fails (a refused `connect`, a read error, an unexpected or missing reply, a write error,
an outbound line that does not fit) is the last event before that `close`, so nothing is
written after it, and the result is then failure; a failure always comes from such a
step. -/
theorem connection_closed_on_every_path (email server sender receiver : Bytes)
    (net : Bytes → Peer)
    (h : Ev.socket true ∈ (send_email_to_server email server sender receiver net).log) :
    ∃ pre, (send_email_to_server email server sender receiver net).log = pre ++ [Ev.close] ∧
      Ev.close ∉ pre ∧
      (∀ a e b, pre = a ++ e :: b → e.failed = true →
        b = [] ∧ (send_email_to_server email server sender receiver net).result = false) ∧
      ((send_email_to_server email server sender receiver net).result = false →
        ∃ a e, pre = a ++ [e] ∧ e.failed = true) :=
  session_disciplined email server sender receiver net h

/-- C7, at a concrete run: a server that greets with 554. -/
theorem connection_closed_on_every_path_witness :
    ∃ pre, (send_email_to_server sampleEmail (str "mx.d.com") (str "a@b.com")
        (str "c@d.com") (fun _ => refusingPeer)).log = pre ++ [Ev.close] ∧
      Ev.close ∉ pre ∧
      (∀ a e b, pre = a ++ e :: b → e.failed = true →
        b = [] ∧ (send_email_to_server sampleEmail (str "mx.d.com") (str "a@b.com")
          (str "c@d.com") (fun _ => refusingPeer)).result = false) ∧
      ((send_email_to_server sampleEmail (str "mx.d.com") (str "a@b.com")
          (str "c@d.com") (fun _ => refusingPeer)).result = false →
        ∃ a e, pre = a ++ [e] ∧ e.failed = true) :=
  connection_closed_on_every_path sampleEmail (str "mx.d.com") (str "a@b.com")
    (str "c@d.com") (fun _ => refusingPeer) (by decide)

/-! ## The theorems on `smtp_receive`, `smtp_send` and `get_servers` -/

/-- The reply buffer of `smtp_receive` is not terminated by the code: on a reply without
CR, LF or NUL the result follows the bytes left in memory after it. -/
theorem smtp_receive_unterminated :
    smtp_receive (some (str "250")) [] (str "250") = true ∧
    smtp_receive (some (str "250")) (str "O b.com\r\n") (str "250") = false ∧
    smtp_receive (some (str "25")) (str "0 b.com\r\n") (str "250") = true := by
  decide

/-- C8, as stated, fails: the leading whitespace-delimited token of the reply `250<TAB>OK`
is `250`, yet `smtp_receive` rejects the reply when 250 is expected (the only delimiter of
`strtok` is the space); the reply holds its line terminator, so the memory after it plays
no part. -/
theorem leading_token_counterexample :
    leadingToken (str "250\tOK\r\n") = str "250" ∧
    smtp_receive (some (str "250\tOK\r\n")) [] (str "250") = false ∧
    smtp_receive (some (str "250\tOK\r\n")) (str "HELO b.com\r\n") (str "250") = false := by
  decide

/-- C8, amended: for every reply buffer that holds a CR, an LF or a NUL, whatever the
memory after the bytes read holds, and every expected three-digit code, `smtp_receive`
returns success if and only if the first line of the reply (its bytes before the first
NUL, CR or LF) is, after any leading spaces, the expected code followed by the end of
the line or by a space; the comparison is string equality, so a continuation reply (the
code followed by `-`) is rejected. -/
theorem smtp_receive_exact_code (reply stale code : Bytes) (h : ThreeDigit code)
    (hterm : ∃ b ∈ reply, b = 0 ∨ b = 13 ∨ b = 10) :
    (smtp_receive (some reply) stale code = true ↔
      ∃ k rest, firstLine reply = List.replicate k 32 ++ code ++ rest ∧
        (rest = [] ∨ ∃ t, rest = 32 :: t)) ∧
    smtp_receive (some (code ++ 45 :: reply)) stale code = false := by
  have hne := h.ne_nil
  have hsp := h.not_mem 32 (by omega)
  refine ⟨?_, ?_⟩
  · rw [smtp_receive_iff reply stale code hne hsp,
      firstLine_append_of_terminated reply stale hterm]
  cases hr : smtp_receive (some (code ++ 45 :: reply)) stale code with
  | false => rfl
  | true =>
    exfalso
    rw [smtp_receive_iff _ stale code hne hsp] at hr
    obtain ⟨k, rest, hfl, hrest⟩ := hr
    have hall : ∀ b ∈ code, (fun b : Nat => decide (b ≠ 0 ∧ b ≠ 13 ∧ b ≠ 10)) b = true := by
      intro b hb
      have := h.2 b hb
      simp only [decide_eq_true_eq]
      omega
    have hfl2 : firstLine (code ++ 45 :: reply ++ stale) =
        code ++ 45 :: firstLine (reply ++ stale) := by
      unfold firstLine
      rw [List.append_assoc, takeWhile_append_of_all _ _ _ hall]
      simp [List.takeWhile_cons]
    rw [hfl2] at hfl
    obtain ⟨c, cs, rfl⟩ := List.exists_cons_of_ne_nil hne
    have hc : c ≠ 32 := fun e => hsp (by simp [e])
    cases k with
    | zero =>
      simp only [List.replicate_zero, List.nil_append, List.cons_append, List.cons.injEq,
        true_and] at hfl
      have := List.append_cancel_left hfl
      rcases hrest with h0 | ⟨t, ht⟩
      · rw [h0] at this; exact List.noConfusion this
      · rw [ht] at this
        simp at this
    | succ k =>
      simp only [List.replicate_succ, List.cons_append, List.cons.injEq] at hfl
      exact hc hfl.1

/-- C8 amended, at a concrete reply. -/
theorem smtp_receive_exact_code_witness :
    (smtp_receive (some (str "250 OK\r\n")) (str "left over") (str "250") = true ↔
      ∃ k rest, firstLine (str "250 OK\r\n") = List.replicate k 32 ++ str "250" ++ rest ∧
        (rest = [] ∨ ∃ t, rest = 32 :: t)) ∧
    smtp_receive (some (str "250" ++ 45 :: str "250 OK\r\n")) (str "left over") (str "250") =
      false :=
  smtp_receive_exact_code (str "250 OK\r\n") (str "left over") (str "250") (by decide)
    ⟨10, by decide, Or.inr (Or.inr rfl)⟩

/-- C9, as stated, fails: when the `write` call reports an error, `smtp_send` returns
failure although the formatted line fits the buffer. -/
theorem smtp_send_write_error_counterexample :
    (data.render (str "DATA")).length < MAXBUF ∧
    smtp_send false data (str "DATA") = (false, Ev.write (str "DATA\r\n") false) := by
  decide

/-- C9, amended: `smtp_send` hands the complete formatted line to `write` and returns
whether that `write` succeeded when the line fits the 4096-byte buffer; when the line
does not fit it returns failure without any `write` call; whatever it hands to `write`
is the complete line, never a truncated one. Hence a session whose sender, recipient or
body line overflows the bound returns failure. -/
theorem smtp_send_never_truncates (wok : Bool) (format : Format) (message : Bytes)
    (email server sender receiver : Bytes) (net : Bytes → Peer) :
    ((format.render message).length < MAXBUF →
      smtp_send wok format message = (wok, Ev.write (format.render message) wok)) ∧
    (MAXBUF ≤ (format.render message).length →
      smtp_send wok format message = (false, Ev.overflow)) ∧
    (∀ bytes ok, (smtp_send wok format message).2 = Ev.write bytes ok →
      bytes = format.render message) ∧
    ((MAXBUF ≤ (mail.render sender).length ∨ MAXBUF ≤ (rcpt.render receiver).length ∨
        ∃ l ∈ lines email, MAXBUF ≤ (data.render (chomp l)).length) →
      (send_email_to_server email server sender receiver net).result = false) := by
  refine ⟨smtp_send_fits wok format message, smtp_send_overflow wok format message, ?_,
    session_overflow email server sender receiver net⟩
  intro bytes ok hev
  by_cases hfit : (format.render message).length < MAXBUF
  · rw [smtp_send_fits wok format message hfit] at hev
    simp only [Ev.write.injEq] at hev
    exact hev.1.symm
  · rw [smtp_send_overflow wok format message (by omega)] at hev
    exact Ev.noConfusion hev

/-- C9 amended, at a concrete call: `DATA` fits and is handed to `write` whole. -/
theorem smtp_send_never_truncates_witness :
    smtp_send true data (str "DATA") = (true, Ev.write (data.render (str "DATA")) true) :=
  (smtp_send_never_truncates true data (str "DATA") [] [] [] [] (fun _ => acceptingPeer)).1
    (by decide)

set_option maxRecDepth 1000000 in
/-- C5, as stated, fails: for 51 well-formed records of distinct priorities the array
`get_servers` returns holds 50 hostnames, not 51. -/
theorem resolver_cap_counterexample :
    manyRecords.length = 51 ∧ (∀ r ∈ manyRecords, r.WellFormed) ∧
    (manyRecords.map MX.value).Nodup ∧
    (get_servers (str "d.com") (fun _ => some (pipeline manyRecords))).map
      (fun s => s.slots.length) = some 50 := by
  decide

/-- C5, amended: for every domain whose query yields fewer than `MAXSERVS` = 50 records
of distinct priorities, one `priority hostname` line per record, `get_servers` returns
exactly the hostnames of those records, one entry per record, ordered by strictly
ascending priority value. -/
theorem get_servers_ascending (hostname : Bytes) (popen : Bytes → Option Bytes)
    (recs : List MX)
    (hcmd : (command_template.render hostname).length < MAXBUF)
    (hpopen : popen (command_template.render hostname) = some (pipeline recs))
    (hwf : ∀ r ∈ recs, r.WellFormed) (hdist : (recs.map MX.value).Nodup)
    (hN : recs.length < MAXSERVS) :
    ∃ sorted : List MX, sorted.Perm recs ∧
      sorted.Pairwise (fun a b => a.value < b.value) ∧
      sorted.length = recs.length ∧
      get_servers hostname popen = some ⟨sorted.map (fun r => Slot.host r.host), true⟩ :=
  ⟨sortedRecords recs, sortedRecords_perm recs, sortedRecords_pairwise recs hdist,
    (sortedRecords_perm recs).length_eq,
    get_servers_pipeline hostname popen recs hcmd hpopen hwf hN⟩

/-- C5 amended, at a concrete query: three records given out of order. -/
theorem get_servers_ascending_witness :
    ∃ sorted : List MX,
      sorted.Perm [⟨str "20", str "b.d.com."⟩, ⟨str "5", str "a.d.com."⟩,
        ⟨str "100", str "c.d.com."⟩] ∧
      sorted.Pairwise (fun a b => a.value < b.value) ∧
      sorted.length =
        [(⟨str "20", str "b.d.com."⟩ : MX), ⟨str "5", str "a.d.com."⟩,
          ⟨str "100", str "c.d.com."⟩].length ∧
      get_servers (str "d.com")
        (fun _ => some (pipeline [⟨str "20", str "b.d.com."⟩, ⟨str "5", str "a.d.com."⟩,
          ⟨str "100", str "c.d.com."⟩])) =
        some ⟨sorted.map (fun r => Slot.host r.host), true⟩ :=
  get_servers_ascending (str "d.com") _ [⟨str "20", str "b.d.com."⟩,
    ⟨str "5", str "a.d.com."⟩, ⟨str "100", str "c.d.com."⟩] (by decide) rfl (by decide)
    (by decide) (by decide)

/-- C10, the code at a failing input: a malformed first line leaves `servers[0]` never
stored to while the index moves on, so the array holds two slots, the first one
uninitialised, where the claim has the single hostname of the well-formed record. -/
theorem malformed_record_leaves_hole :
    get_servers (str "d.com") (fun _ => some (str "junk\n10 mx.d.com.\n")) =
      some ⟨[Slot.uninit, Slot.host (str "mx.d.com.")], true⟩ := by
  decide

/-! ## The theorems on `send_email` -/

/-- C3, as stated, fails: when the first two bracketed strings of the message source stand
on the same line, the scan takes the sender from that line and no recipient from it. -/
theorem same_line_counterexample :
    (bracketedStrings (str "<a@b.com> <c@d.com>\n")).take 2 = [str "a@b.com", str "c@d.com"] ∧
    scanHeaders (lines (str "<a@b.com> <c@d.com>\n")) none = (some (str "a@b.com"), none, []) := by
  decide

/-- C3, amended: for every message source in which the first line that holds a bracketed
string holds `sender` as its first one and the next later line that holds a bracketed
string holds `recipient` as its first one, the header scan of `send_email` yields that
sender and that recipient, whatever other text surrounds the two bracketed strings. -/
theorem scan_takes_one_address_per_line (source : Bytes) (before between after : List Bytes)
    (l1 l2 pre1 post1 pre2 post2 sender recipient : Bytes)
    (hlines : lines source = before ++ l1 :: (between ++ l2 :: after))
    (hbefore : ∀ l ∈ before, bracketedFrom (cstr l) none = [])
    (hbetween : ∀ l ∈ between, bracketedFrom (cstr l) none = [])
    (h1 : cstr l1 = pre1 ++ 60 :: (sender ++ 62 :: post1)) (hpre1 : 60 ∉ pre1)
    (hsender : 62 ∉ sender)
    (h2 : cstr l2 = pre2 ++ 60 :: (recipient ++ 62 :: post2)) (hpre2 : 60 ∉ pre2)
    (hrecipient : 62 ∉ recipient) :
    scanHeaders (lines source) none = (some sender, some recipient, after) := by
  have b1 := bracketed_of_shape l1 pre1 sender post1 h1 hpre1 hsender
  have b2 := bracketed_of_shape l2 pre2 recipient post2 h2 hpre2 hrecipient
  rw [hlines, scanHeaders_skip before _ none hbefore, scanHeaders_sender l1 _ sender b1,
    scanHeaders_skip between _ _ hbetween]
  simp only [scanHeaders, b2]

/-- C3 amended, at a concrete message source. -/
theorem scan_takes_one_address_per_line_witness :
    scanHeaders
      (lines (str "Date: today\nFrom: Al <a@b.com>\nSubject: hi\nTo: Bo <c@d.com> now\nbody <x>\n"))
      none = (some (str "a@b.com"), some (str "c@d.com"), [str "body <x>\n"]) :=
  scan_takes_one_address_per_line
    (str "Date: today\nFrom: Al <a@b.com>\nSubject: hi\nTo: Bo <c@d.com> now\nbody <x>\n")
    [str "Date: today\n"] [str "Subject: hi\n"] [str "body <x>\n"]
    (str "From: Al <a@b.com>\n") (str "To: Bo <c@d.com> now\n")
    (str "From: Al ") (str "\n") (str "To: Bo ") (str " now\n") (str "a@b.com") (str "c@d.com")
    (by decide) (by decide) (by decide) (by decide) (by decide) (by decide) (by decide)
    (by decide) (by decide)

/-- C4: for every message source that holds fewer than two bracketed strings, or whose
recipient as scanned holds no `@`, `send_email` returns failure without handing any
hostname to `get_servers` and without running any session. -/
theorem format_error_no_network (content : Bytes) (popen : Bytes → Option Bytes)
    (net : Nat → Bytes → Peer)
    (h : (bracketedStrings content).length < 2 ∨
      ∃ s r rest, scanHeaders (lines content) none = (some s, some r, rest) ∧ 64 ∉ r) :
    (send_email (some content) popen net).result = false ∧
    (send_email (some content) popen net).resolved = [] ∧
    (send_email (some content) popen net).attempts = [] := by
  cases hscan : scanHeaders (lines content) none with
  | mk a bc =>
    cases bc with
    | mk b c =>
      cases a with
      | none => simp [send_email, hscan]
      | some s =>
        cases b with
        | none => simp [send_email, hscan]
        | some r =>
          have hr : 64 ∉ r := by
            rcases h with h | ⟨s', r', rest', h', hr'⟩
            · exfalso
              have := scanHeaders_count (lines content) none r (by rw [hscan])
              simp only [if_true] at this
              unfold bracketedStrings at h
              omega
            · rw [hscan] at h'
              simp only [Prod.mk.injEq, Option.some.injEq] at h'
              rw [h'.2.1]
              exact hr'
          simp [send_email, hscan, strchr_none r 64 hr]

/-- C4, at a concrete message source with a single bracketed address. -/
theorem format_error_no_network_witness :
    (send_email (some (str "From: <a@b.com>\nhello\n")) threeRecords onlyThird).result = false ∧
    (send_email (some (str "From: <a@b.com>\nhello\n")) threeRecords onlyThird).resolved = [] ∧
    (send_email (some (str "From: <a@b.com>\nhello\n")) threeRecords onlyThird).attempts = [] :=
  format_error_no_network (str "From: <a@b.com>\nhello\n") threeRecords onlyThird
    (Or.inl (by decide))

/-- C2: with an envelope scanned from the message source and a server list returned by
`get_servers`, `send_email` runs the session against the servers in list order, each
session starting on the message source rewound to its beginning (its whole content);
it stops at the first session that reports success and returns success, no later server
being tried; when every session fails it returns failure after trying them all, and
with an empty list it returns failure without any session. -/
theorem orchestrator_tries_in_order (content : Bytes) (popen : Bytes → Option Bytes)
    (net : Nat → Bytes → Peer) (sender receiver : Bytes) (unread : List Bytes) (i : Nat)
    (srv : Servers) (servers : List Bytes)
    (hscan : scanHeaders (lines content) none = (some sender, some receiver, unread))
    (hat : strchr receiver 64 = some i)
    (hsrv : get_servers (receiver.drop (i + 1)) popen = some srv)
    (hslots : srv.slots = servers.map Slot.host) :
    (∀ pre s post, servers = pre ++ s :: post →
      (∀ j t, pre[j]? = some t →
        (send_email_to_server content t sender receiver (net j)).result = false) →
      (send_email_to_server content s sender receiver (net pre.length)).result = true →
      (send_email (some content) popen net).result = true ∧
      (send_email (some content) popen net).attempts.map Attempt.key =
        (pre ++ [s]).map (fun t => (t, content))) ∧
    ((∀ j t, servers[j]? = some t →
        (send_email_to_server content t sender receiver (net j)).result = false) →
      (send_email (some content) popen net).result = false ∧
      (send_email (some content) popen net).attempts.map Attempt.key =
        servers.map (fun t => (t, content))) ∧
    (servers = [] →
      (send_email (some content) popen net).result = false ∧
      (send_email (some content) popen net).attempts = []) := by
  have hlen : srv.slots.length ≤ MAXSERVS := get_servers_slots_le _ _ _ hsrv
  have htake : srv.slots.take MAXSERVS = servers.map Slot.host := by
    rw [List.take_of_length_le hlen, hslots]
  have hall : (∀ j t, servers[j]? = some t →
        (send_email_to_server content t sender receiver (net j)).result = false) →
      (send_email (some content) popen net).result = false ∧
      (send_email (some content) popen net).attempts.map Attempt.key =
        servers.map (fun t => (t, content)) := by
    intro hfail
    have := tryServers_all_fail content sender receiver net servers 0
      ⟨content, unread.flatten⟩ rfl (by simpa using hfail)
    simp only [send_email, hscan, hat, hsrv, htake]
    exact ⟨this.1, this.2.1⟩
  refine ⟨?_, hall, ?_⟩
  · intro pre s post hsplit hfail hok
    have := tryServers_first_success content sender receiver net pre s post 0
      ⟨content, unread.flatten⟩ rfl (by simpa using hfail) (by simpa using hok)
    simp only [send_email, hscan, hat, hsrv, htake, hsplit]
    exact ⟨this.1, this.2.1⟩
  · intro hnil
    subst hnil
    have := hall (fun j t hj => by simp at hj)
    refine ⟨this.1, ?_⟩
    have h2 := this.2
    simpa using h2

/-- C2, at a concrete delivery: the list `[s1, s2, s3]` where only `s3` accepts gives the
attempts `s1`, `s2`, `s3` in that order, each on the whole message, and overall success. -/
theorem orchestrator_tries_in_order_witness :
    (send_email (some sampleEmail) threeRecords onlyThird).result = true ∧
    (send_email (some sampleEmail) threeRecords onlyThird).attempts.map Attempt.key =
      [(str "s1.d.com.", sampleEmail), (str "s2.d.com.", sampleEmail),
        (str "s3.d.com.", sampleEmail)] :=
  (orchestrator_tries_in_order sampleEmail threeRecords onlyThird (str "a@b.com")
    (str "c@d.com") [str "\r\n", str "hello\r\n"] 1
    ⟨[Slot.host (str "s1.d.com."), Slot.host (str "s2.d.com."), Slot.host (str "s3.d.com.")],
      true⟩
    [str "s1.d.com.", str "s2.d.com.", str "s3.d.com."]
    (by decide) (by decide) (by decide) (by decide)).1
    [str "s1.d.com.", str "s2.d.com."] (str "s3.d.com.") [] rfl
    (fun j t hj => by
      rcases j with _ | _ | j
      · have : str "s1.d.com." = t := by simpa using hj
        subst this
        decide
      · have : str "s2.d.com." = t := by simpa using hj
        subst this
        decide
      · simp at hj)
    (by decide)

end Hw1
